import Mathlib

/-!
# Shoot reference control

A shallow embedding of `pkg/controllermanager/controller/shoot/shoot_reference_control.go`
(package `shoot`): the trigger filter (`shootReferenceUpdate`, `refChange`), the reference
extractor (`secretNamesForDNSProviders`), the unreferenced-set calculator
(`getUnreferencedSecrets`) and the reconciler (`Reconcile`, `reconcileShootReferences`,
`handleReferencedSecrets`, `releaseUnreferencedSecrets`).

The resource store behind the garden client is explicit state.  Every request sent to the
store may fail: the client carries the outcomes of the requests still to come
(`Client.faults`), so a pass can be run under any pattern of failing requests.  The tasks
handed to `flow.Parallel` are run one after the other, in the order in which they were
appended; every task is run, also after a sibling failed.
-/

namespace ShootReference

/-! ## Data model -/

/-- Modelled from the spec: `gardencorev1beta1.DNSIncludeExclude`, declared in `pkg/apis/core/v1beta1`. -/
structure DNSIncludeExclude where
  included : List String
  excluded : List String
deriving DecidableEq

/-- Modelled from the spec: `gardencorev1beta1.DNSProvider`, declared in `pkg/apis/core/v1beta1`;
a reference with a target is `SecretName = some name`, a nil pointer is `none`. -/
structure DNSProvider where
  Domains : Option DNSIncludeExclude
  Primary : Option Bool
  SecretName : Option String
  ProviderType : Option String
  Zones : Option DNSIncludeExclude
deriving DecidableEq

/-- Modelled from the spec: `gardencorev1beta1.DNS`, the reference-bearing section of a shoot
specification, declared in `pkg/apis/core/v1beta1`. -/
structure DNS where
  Domain : Option String
  Providers : List DNSProvider
deriving DecidableEq

/-- Modelled from the spec: the parent resource `gardencorev1beta1.Shoot` (identity, deletion
timestamp, finalizers, and the `Spec.DNS` pointer), declared in `pkg/apis/core/v1beta1`. -/
structure Shoot where
  Namespace : String
  Name : String
  DeletionTimestamp : Option Nat
  Finalizers : List String
  DNS : Option DNS
deriving DecidableEq

/-- Modelled from the spec: the child resource `corev1.Secret` (identity, labels, finalizers). -/
structure Secret where
  Namespace : String
  Name : String
  Labels : List (String × String)
  Finalizers : List String
deriving DecidableEq

/-- FinalizerName is the name of the finalizer used for the reference protection. -/
def FinalizerName : String := "gardener.cloud/reference-protection"

/-- Modelled from the spec: `gardencorev1beta1.GardenerName`, the system-ownership finalizer. -/
def GardenerName : String := "gardener"

/-- Modelled from the spec: `v1beta1constants.GardenRole`, the key of the system-ownership label. -/
def GardenRole : String := "gardener.cloud/role"

/-- Modelled from the spec: `controllerutils.HasFinalizer`, membership in the finalizer set. -/
def HasFinalizer (finalizers : List String) (finalizer : String) : Bool :=
  decide (finalizer ∈ finalizers)

/-- Modelled from the spec: the add-marker operation on a finalizer set; adding a marker that
is already present is a no-op. -/
def addFinalizer (finalizer : String) (finalizers : List String) : List String :=
  if finalizer ∈ finalizers then finalizers else finalizers ++ [finalizer]

/-- Modelled from the spec: the remove-marker operation on a finalizer set; removing an absent
marker is a no-op. -/
def removeFinalizer (finalizer : String) (finalizers : List String) : List String :=
  finalizers.filter (fun f => f ≠ finalizer)

/-! ## The store and the garden client -/

/-- The errors a request to the store can end with. -/
inductive StoreError where
  | notFound
  | unavailable
deriving DecidableEq

/-- The errors a reconciliation pass can end with: a single store error, the combined error of
a fan-out, or the failure to obtain the garden client. -/
inductive Err where
  | store (e : StoreError)
  | multi (es : List StoreError)
  | noClient
deriving DecidableEq

/-- The resource store: the shoots and the secrets of all namespaces. -/
structure Store where
  shoots : List Shoot
  secrets : List Secret
deriving DecidableEq

/-- Identities are unique in a store: no two shoots and no two secrets share namespace and name. -/
def Store.WF (st : Store) : Prop :=
  (st.shoots.map (fun s => (s.Namespace, s.Name))).Nodup ∧
  (st.secrets.map (fun s => (s.Namespace, s.Name))).Nodup

instance (st : Store) : Decidable st.WF := by
  unfold Store.WF; infer_instance

/-- The garden client: the store it talks to, and for each request still to come whether it
fails (`true`); requests beyond the end of the list do not fail. -/
structure Client where
  store : Store
  faults : List Bool
deriving DecidableEq

/-- Whether the secret has the identity `ns/name`. -/
def Secret.named (ns name : String) (s : Secret) : Bool :=
  decide (s.Namespace = ns ∧ s.Name = name)

/-- Whether the shoot has the identity `ns/name`. -/
def Shoot.named (ns name : String) (s : Shoot) : Bool :=
  decide (s.Namespace = ns ∧ s.Name = name)

/-- Whether the next request fails. -/
def Client.fails (c : Client) : Bool := c.faults.headD false

/-- The client after one request that left the store as it was. -/
def Client.next (c : Client) : Client := { c with faults := c.faults.tail }

/-- Modelled from the spec: `client.Get` for a shoot (the fetch capability of the store). -/
def Client.GetShoot (c : Client) (ns name : String) : Client × Except StoreError Shoot :=
  if c.fails then (c.next, .error .unavailable)
  else match c.store.shoots.find? (Shoot.named ns name) with
    | some s => (c.next, .ok s)
    | none => (c.next, .error .notFound)

/-- Modelled from the spec: `client.Get` for a secret (the fetch capability of the store). -/
def Client.GetSecret (c : Client) (ns name : String) : Client × Except StoreError Secret :=
  if c.fails then (c.next, .error .unavailable)
  else match c.store.secrets.find? (Secret.named ns name) with
    | some s => (c.next, .ok s)
    | none => (c.next, .error .notFound)

/-- Modelled from the spec: `client.List` for shoots with `client.InNamespace`. -/
def Client.ListShoots (c : Client) (ns : String) : Client × Except StoreError (List Shoot) :=
  if c.fails then (c.next, .error .unavailable)
  else (c.next, .ok (c.store.shoots.filter (fun s => s.Namespace = ns)))

/-- The secret `s` after a patch `f` of the finalizer set of the secret `ns/name`. -/
def Secret.patched (ns name : String) (f : List String → List String) (s : Secret) : Secret :=
  if s.named ns name then { s with Finalizers := f s.Finalizers } else s

/-- The shoot `s` after a patch `f` of the finalizer set of the shoot `ns/name`. -/
def Shoot.patched (ns name : String) (f : List String → List String) (s : Shoot) : Shoot :=
  if s.named ns name then { s with Finalizers := f s.Finalizers } else s

/-- Modelled from the spec: a patch of the finalizer set of the secret with the given identity,
applied to the marker set currently in the store. -/
def Client.patchSecret (c : Client) (ns name : String) (f : List String → List String) :
    Client × Option StoreError :=
  if c.fails then (c.next, some .unavailable)
  else if c.store.secrets.any (Secret.named ns name) then
    ({ store := { c.store with secrets := c.store.secrets.map (Secret.patched ns name f) },
       faults := c.faults.tail }, none)
  else (c.next, some .notFound)

/-- Modelled from the spec: a patch of the finalizer set of the shoot with the given identity,
applied to the marker set currently in the store. -/
def Client.patchShoot (c : Client) (ns name : String) (f : List String → List String) :
    Client × Option StoreError :=
  if c.fails then (c.next, some .unavailable)
  else if c.store.shoots.any (Shoot.named ns name) then
    ({ store := { c.store with shoots := c.store.shoots.map (Shoot.patched ns name f) },
       faults := c.faults.tail }, none)
  else (c.next, some .notFound)

/-- Modelled from the spec: `controllerutils.PatchFinalizers` on a secret. -/
def PatchFinalizersSecret (c : Client) (obj : Secret) (finalizer : String) : Client × Option StoreError :=
  c.patchSecret obj.Namespace obj.Name (addFinalizer finalizer)

/-- Modelled from the spec: `controllerutils.PatchRemoveFinalizers` on a secret. -/
def PatchRemoveFinalizersSecret (c : Client) (obj : Secret) (finalizer : String) : Client × Option StoreError :=
  c.patchSecret obj.Namespace obj.Name (removeFinalizer finalizer)

/-- Modelled from the spec: `controllerutils.PatchFinalizers` on a shoot. -/
def PatchFinalizersShoot (c : Client) (obj : Shoot) (finalizer : String) : Client × Option StoreError :=
  c.patchShoot obj.Namespace obj.Name (addFinalizer finalizer)

/-- Modelled from the spec: `controllerutils.PatchRemoveFinalizers` on a shoot. -/
def PatchRemoveFinalizersShoot (c : Client) (obj : Shoot) (finalizer : String) : Client × Option StoreError :=
  c.patchShoot obj.Namespace obj.Name (removeFinalizer finalizer)

/-- Modelled from the spec: `client.IgnoreNotFound`. -/
def IgnoreNotFound : Option StoreError → Option StoreError
  | some .notFound => none
  | e => e

/-- A task of a fan-out over the state `σ`. -/
abbrev TaskFn (σ : Type) := σ → σ × Option StoreError

/-- All tasks are run, in order, each on the state its predecessor left; the errors are collected. -/
def runTasks {σ : Type} : List (TaskFn σ) → σ → σ × List StoreError
  | [], s => (s, [])
  | fn :: fns, s =>
    let r := fn s
    let rs := runTasks fns r.1
    (rs.1, r.2.toList ++ rs.2)

/-- Modelled from the spec: `flow.Parallel`, the patch executor: every task is run, a failed
task does not stop its siblings, and the result is the combined failure, if any. -/
def Parallel {σ : Type} (fns : List (TaskFn σ)) (s : σ) : σ × Option Err :=
  let r := runTasks fns s
  (r.1, if r.2 = [] then none else some (.multi r.2))

/-! ## Trigger filter -/

/-- Modelled from the spec: `cache.MetaNamespaceKeyFunc`, the key `namespace/name` of an object. -/
def MetaNamespaceKeyFunc (obj : Shoot) : String :=
  if obj.Namespace.length > 0 then obj.Namespace ++ "/" ++ obj.Name else obj.Name

/-- The controller, reduced to its reference queue: the keys handed to `Add`, oldest first. -/
structure Controller where
  shootReferenceQueue : List String
deriving DecidableEq

/-- The condition "deletion requested and no longer system-owned": a deletion timestamp is set
and the finalizer `GardenerName` is not carried. -/
def beingFinallyRemoved (shoot : Shoot) : Prop :=
  shoot.DeletionTimestamp ≠ none ∧ GardenerName ∉ shoot.Finalizers

instance (shoot : Shoot) : Decidable (beingFinallyRemoved shoot) := by
  unfold beingFinallyRemoved; infer_instance

/-- Whether the DNS section differs between the two versions; `apiequality.Semantic` compares
the pointed-to values, and a nil slice equals an empty one, as lists do here. -/
def refChange (oldShoot newShoot : Shoot) : Bool :=
  !(decide (oldShoot.DNS = newShoot.DNS))

/-- The key function cannot fail on a shoot, so the key is always added. -/
def Controller.shootReferenceAdd (c : Controller) (obj : Shoot) : Controller :=
  { c with shootReferenceQueue := c.shootReferenceQueue ++ [MetaNamespaceKeyFunc obj] }

/-- The update handler: the key of the new version is added to the queue, or nothing happens. -/
def Controller.shootReferenceUpdate (c : Controller) (oldShoot newShoot : Shoot) : Controller :=
  if refChange oldShoot newShoot ||
      (newShoot.DeletionTimestamp.isSome && !HasFinalizer newShoot.Finalizers GardenerName) then
    { c with shootReferenceQueue := c.shootReferenceQueue ++ [MetaNamespaceKeyFunc newShoot] }
  else c

/-! ## Reference extractor -/

/-- The names of the secrets the DNS providers of the shoot point to. -/
def secretNamesForDNSProviders (shoot : Shoot) : List String :=
  match shoot.DNS with
  | none => []
  | some dns =>
    dns.Providers.foldl (fun names provider =>
      match provider.SecretName with
      | none => names
      | some secretName => names ++ [secretName]) []

/-! ## Reconciler -/

/-- UserManagedSelector is a selector for objects which are managed by users and not created by
Gardener: the label `GardenRole` does not exist. -/
def UserManagedSelector (labels : List (String × String)) : Bool :=
  (labels.lookup GardenRole).isNone

/-- SecretLister fetches secret objects with the given options: a namespace and a label selector. -/
abbrev SecretLister := Store → String → (List (String × String) → Bool) → Except StoreError (List Secret)

/-- The lister that reads the store and honours both options. -/
def storeSecretLister : SecretLister := fun st ns selector =>
  .ok (st.secrets.filter (fun s => s.Namespace = ns ∧ selector s.Labels))

/-- The reconciler, reduced to what a pass reads from it: the injected lister. -/
structure shootReferenceReconciler where
  secretLister : SecretLister

/-- NewShootReferenceReconciler creates a new instance of a reconciler which checks object
references from shoot objects. -/
def NewShootReferenceReconciler (userSecretLister : SecretLister) : shootReferenceReconciler :=
  { secretLister := userSecretLister }

/-- Modelled from the spec: `reconcile.Request`, the identity of the parent resource. -/
structure Request where
  Namespace : String
  Name : String
deriving DecidableEq

/-- The user-managed secrets of the namespace that carry the protective finalizer and are
referenced by no shoot of the namespace. -/
def shootReferenceReconciler.getUnreferencedSecrets (r : shootReferenceReconciler) (c : Client)
    (shoot : Shoot) : Client × Except StoreError (List Secret) :=
  let ns := shoot.Namespace
  match r.secretLister c.store ns UserManagedSelector with
  | .error e => (c, .error e)
  | .ok secrets =>
    match c.ListShoots ns with
    | (c1, .error e) => (c1, .error e)
    | (c1, .ok shoots) =>
      let referencedSecrets : List String := shoots.foldl (fun acc s =>
        -- Ignore own references if shoot is in deletion and references are not needed any more by Gardener.
        if s.Name = shoot.Name ∧ shoot.DeletionTimestamp.isSome ∧ !HasFinalizer s.Finalizers GardenerName then acc
        else acc ++ secretNamesForDNSProviders s) []
      let secretsToRelease : List Secret := secrets.foldl (fun acc secret =>
        if !HasFinalizer secret.Finalizers FinalizerName then acc
        else if decide (secret.Name ∈ referencedSecrets) then acc
        else acc ++ [secret]) []
      (c1, .ok secretsToRelease)

/-- One task of `releaseUnreferencedSecrets`. -/
def releaseUnreferencedSecretTask (s : Secret) : TaskFn Client := fun c =>
  let p := PatchRemoveFinalizersSecret c s FinalizerName
  (p.1, IgnoreNotFound p.2)

/-- The release phase: one task per secret to release. -/
def shootReferenceReconciler.releaseUnreferencedSecrets (r : shootReferenceReconciler) (c : Client)
    (shoot : Shoot) : Client × Option Err :=
  match r.getUnreferencedSecrets c shoot with
  | (c1, .error e) => (c1, some (.store e))
  | (c1, .ok secrets) =>
    let fns := secrets.map releaseUnreferencedSecretTask
    Parallel fns c1

/-- One task of `handleReferencedSecrets`; the second component of the state is `added`. -/
def handleReferencedSecretTask (shoot : Shoot) (name : String) : TaskFn (Client × Nat) := fun st =>
  match st.1.GetSecret shoot.Namespace name with
  | (c1, .error e) => ((c1, st.2), some e)
  | (c1, .ok secret) =>
    -- Don't handle Gardener managed secrets.
    if (secret.Labels.lookup GardenRole).isSome then ((c1, st.2), none)
    else if HasFinalizer secret.Finalizers FinalizerName then ((c1, 1), none)
    else
      let p := PatchFinalizersSecret c1 secret FinalizerName
      ((p.1, 1), p.2)

/-- The grant phase: one task per referenced secret; returns `added != 0` and the error. -/
def shootReferenceReconciler.handleReferencedSecrets (_r : shootReferenceReconciler) (c : Client)
    (shoot : Shoot) : Client × Bool × Option Err :=
  let dnsSecretNames := secretNamesForDNSProviders shoot
  let fns := dnsSecretNames.map (handleReferencedSecretTask shoot)
  let res := Parallel fns (c, 0)
  (res.1.1, res.1.2 != 0, res.2)

/-- One pass for a shoot that was found in the store. -/
def shootReferenceReconciler.reconcileShootReferences (r : shootReferenceReconciler) (c : Client)
    (shoot : Shoot) : Client × Option Err :=
  -- Iterate over all user secrets in project namespace and check if they can be released.
  match r.releaseUnreferencedSecrets c shoot with
  | (c1, some err) => (c1, some err)
  | (c1, none) =>
    -- Remove finalizer from shoot in case it's being deleted and not handled by Gardener any more.
    if shoot.DeletionTimestamp.isSome && !HasFinalizer shoot.Finalizers GardenerName then
      let p := PatchRemoveFinalizersShoot c1 shoot FinalizerName
      (p.1, p.2.map Err.store)
    else
      -- Add finalizer to referenced secrets that are not managed by Gardener.
      match r.handleReferencedSecrets c1 shoot with
      | (c2, _, some err) => (c2, some err)
      | (c2, needsFinalizer, none) =>
        -- Manage finalizers on shoot.
        let hasFinalizer := HasFinalizer shoot.Finalizers FinalizerName
        if needsFinalizer && !hasFinalizer then
          let p := PatchFinalizersShoot c2 shoot FinalizerName
          (p.1, p.2.map Err.store)
        else if !needsFinalizer && hasFinalizer then
          let p := PatchRemoveFinalizersShoot c2 shoot FinalizerName
          (p.1, p.2.map Err.store)
        else (c2, none)

/-- Reconcile checks the shoot in the given request for references to further objects in order
to protect them from deletions as long as they are still referenced. -/
def shootReferenceReconciler.Reconcile (r : shootReferenceReconciler) (c : Client)
    (request : Request) : Client × Option Err :=
  if c.fails then (c.next, some .noClient)
  else
    match c.next.GetShoot request.Namespace request.Name with
    | (c1, .error .notFound) => (c1, none)
    | (c1, .error e) => (c1, some (.store e))
    | (c1, .ok shoot) => r.reconcileShootReferences c1 shoot

/-! ## Closed forms of the two fan-outs -/

/-- The secret after the protective finalizer was removed from it, if its identity is in `keys`. -/
def Secret.released (keys : List (String × String)) (s : Secret) : Secret :=
  if (s.Namespace, s.Name) ∈ keys then
    { Namespace := s.Namespace, Name := s.Name, Labels := s.Labels,
      Finalizers := removeFinalizer FinalizerName s.Finalizers } else s

/-- The secret after the protective finalizer was added to it, if it is a user-managed secret
of the namespace `ns` with a name in `names`. -/
def Secret.granted (ns : String) (names : List String) (s : Secret) : Secret :=
  if s.Namespace = ns ∧ s.Name ∈ names ∧ UserManagedSelector s.Labels = true then
    { Namespace := s.Namespace, Name := s.Name, Labels := s.Labels,
      Finalizers := addFinalizer FinalizerName s.Finalizers } else s

/-- The secrets after the protective finalizer was removed from those with an identity in `keys`. -/
def releasedAt (keys : List (String × String)) (secrets : List Secret) : List Secret :=
  secrets.map (Secret.released keys)

/-- The secrets after the protective finalizer was added to the user-managed ones of the
namespace `ns` with a name in `names`. -/
def grantedAt (ns : String) (names : List String) (secrets : List Secret) : List Secret :=
  secrets.map (Secret.granted ns names)

/-- The names collected in `referencedSecrets` by `getUnreferencedSecrets` for the target
`shoot` and the listed `shoots`. -/
def referencedSecretNames (shoot : Shoot) (shoots : List Shoot) : List String :=
  shoots.foldl (fun acc s =>
    if s.Name = shoot.Name ∧ shoot.DeletionTimestamp.isSome ∧ !HasFinalizer s.Finalizers GardenerName then acc
    else acc ++ secretNamesForDNSProviders s) []

/-- The list `secretsToRelease` built by `getUnreferencedSecrets` from the listed `secrets`. -/
def secretsToRelease (shoot : Shoot) (shoots : List Shoot) (secrets : List Secret) : List Secret :=
  secrets.foldl (fun acc secret =>
    if !HasFinalizer secret.Finalizers FinalizerName then acc
    else if decide (secret.Name ∈ referencedSecretNames shoot shoots) then acc
    else acc ++ [secret]) []

/-- Some secret referenced by the DNS providers of `shoot` exists among `secrets` and is
user-managed. -/
def referencesUserManaged (shoot : Shoot) (secrets : List Secret) : Prop :=
  ∃ name ∈ secretNamesForDNSProviders shoot, ∃ s ∈ secrets,
    s.Namespace = shoot.Namespace ∧ s.Name = name ∧ UserManagedSelector s.Labels = true

instance (shoot : Shoot) (secrets : List Secret) : Decidable (referencesUserManaged shoot secrets) := by
  unfold referencesUserManaged; infer_instance

/-- The finalizers of the shoot `ns/name` in the store, if it exists. -/
def Store.shootFinalizers (st : Store) (ns name : String) : Option (List String) :=
  (st.shoots.find? (Shoot.named ns name)).map (fun s => s.Finalizers)

/-- The finalizers of the secret `ns/name` in the store, if it exists. -/
def Store.secretFinalizers (st : Store) (ns name : String) : Option (List String) :=
  (st.secrets.find? (Secret.named ns name)).map (fun s => s.Finalizers)

/-- Two versions of one secret: same identity, same labels, and the very same object when it
carries the system-ownership label. -/
def sameManaged (a b : Secret) : Prop :=
  a.Namespace = b.Namespace ∧ a.Name = b.Name ∧ a.Labels = b.Labels ∧
    (UserManagedSelector a.Labels = false → a = b)

/-! ## Concrete inputs -/

/-- A namespace with two shoots and four secrets: `p` references `c` (and has one provider
without a target), `q` references `d`; `e` is protected but no longer referenced; `m` is
system-managed, protected and not referenced. -/
def gardenStore : Store :=
  { shoots :=
      [ { Namespace := "garden-dev", Name := "p", DeletionTimestamp := none,
          Finalizers := [GardenerName],
          DNS := some { Domain := none, Providers :=
            [ { Domains := none, Primary := none, SecretName := some "c", ProviderType := none, Zones := none },
              { Domains := none, Primary := none, SecretName := none, ProviderType := none, Zones := none } ] } },
        { Namespace := "garden-dev", Name := "q", DeletionTimestamp := none,
          Finalizers := [GardenerName, FinalizerName],
          DNS := some { Domain := none, Providers :=
            [ { Domains := none, Primary := none, SecretName := some "d", ProviderType := none, Zones := none } ] } } ],
    secrets :=
      [ { Namespace := "garden-dev", Name := "c", Labels := [], Finalizers := [] },
        { Namespace := "garden-dev", Name := "d", Labels := [], Finalizers := [FinalizerName] },
        { Namespace := "garden-dev", Name := "e", Labels := [], Finalizers := [FinalizerName] },
        { Namespace := "garden-dev", Name := "m", Labels := [(GardenRole, "internal-domain")],
          Finalizers := [FinalizerName] } ] }

/-- The shoot `p` in deletion, no longer owned by the system and still protected; it still
references `c`. -/
def shootDeleting : Shoot :=
  { Namespace := "garden-dev", Name := "p", DeletionTimestamp := some 1,
    Finalizers := [FinalizerName],
    DNS := some { Domain := none, Providers :=
      [ { Domains := none, Primary := none, SecretName := some "c", ProviderType := none, Zones := none } ] } }

/-- A namespace in which `p` is being finally removed: `c` is referenced by `p` alone, `d` by
`q`; both secrets are protected. -/
def deletingStore : Store :=
  { shoots :=
      [ shootDeleting,
        { Namespace := "garden-dev", Name := "q", DeletionTimestamp := none,
          Finalizers := [GardenerName, FinalizerName],
          DNS := some { Domain := none, Providers :=
            [ { Domains := none, Primary := none, SecretName := some "d", ProviderType := none, Zones := none } ] } } ],
    secrets :=
      [ { Namespace := "garden-dev", Name := "c", Labels := [], Finalizers := [FinalizerName] },
        { Namespace := "garden-dev", Name := "d", Labels := [], Finalizers := [FinalizerName] } ] }

/-- The protected user-managed secret `c`. -/
def protectedSecretC : Secret :=
  { Namespace := "garden-dev", Name := "c", Labels := [], Finalizers := [FinalizerName] }

/-- The shoot `p` in deletion and still owned by the system; it references `c`. -/
def shootOwnedDeleting : Shoot :=
  { Namespace := "garden-dev", Name := "p", DeletionTimestamp := some 1,
    Finalizers := [GardenerName, FinalizerName],
    DNS := some { Domain := none, Providers :=
      [ { Domains := none, Primary := none, SecretName := some "c", ProviderType := none, Zones := none } ] } }

/-- A namespace whose only shoot is `p`, listed as still owned by the system, and whose only
secret is the protected `c`, referenced by `p`. -/
def skewedStore : Store :=
  { shoots := [shootOwnedDeleting], secrets := [protectedSecretC] }

/-- The shoot `p` of `protectedStore`: it references `c` and is not protected. -/
def shootUnprotected : Shoot :=
  { Namespace := "garden-dev", Name := "p", DeletionTimestamp := none,
    Finalizers := [GardenerName],
    DNS := some { Domain := none, Providers :=
      [ { Domains := none, Primary := none, SecretName := some "c", ProviderType := none, Zones := none } ] } }

/-- A namespace in which the secret `c`, referenced by `p`, is already protected while `p`
is not. -/
def protectedStore : Store :=
  { shoots := [shootUnprotected],
    secrets :=
      [ { Namespace := "garden-dev", Name := "c", Labels := [], Finalizers := [FinalizerName] } ] }

/-- The shoot `p` of `danglingStore`: it references the secret `x`. -/
def shootDangling : Shoot :=
  { Namespace := "garden-dev", Name := "p", DeletionTimestamp := none,
    Finalizers := [GardenerName],
    DNS := some { Domain := none, Providers :=
      [ { Domains := none, Primary := none, SecretName := some "x", ProviderType := none, Zones := none } ] } }

/-- A namespace in which the secret `x` referenced by `p` does not exist. -/
def danglingStore : Store :=
  { shoots := [shootDangling], secrets := [] }

/-- A lister that answers from a stale cache: it still returns the protected secret `gone`,
which is in no store. -/
def staleSecretLister : SecretLister := fun _ _ _ =>
  .ok [{ Namespace := "garden-dev", Name := "gone", Labels := [], Finalizers := [FinalizerName] }]

/-- The shoot `p` of `gardenStore`. -/
def shootP : Shoot :=
  { Namespace := "garden-dev", Name := "p", DeletionTimestamp := none,
    Finalizers := [GardenerName],
    DNS := some { Domain := none, Providers :=
      [ { Domains := none, Primary := none, SecretName := some "c", ProviderType := none, Zones := none },
        { Domains := none, Primary := none, SecretName := none, ProviderType := none, Zones := none } ] } }

/-- A shoot whose only DNS provider has a target that is set to the empty name. -/
def shootWithEmptyTarget : Shoot :=
  { Namespace := "garden-dev", Name := "p", DeletionTimestamp := none, Finalizers := [],
    DNS := some { Domain := none, Providers :=
      [{ Domains := none, Primary := none, SecretName := some "", ProviderType := none, Zones := none }] } }

/-- A shoot in deletion that the system no longer owns; it has no DNS section. -/
def shootInFinalRemoval : Shoot :=
  { Namespace := "garden-dev", Name := "p", DeletionTimestamp := some 1,
    Finalizers := [FinalizerName], DNS := none }

/-! ## Auxiliary facts about the loops -/

theorem mem_foldl_skip_skip_append {α : Type} (p q : α → Prop) [DecidablePred p] [DecidablePred q]
    (l : List α) (init : List α) (b : α) :
    b ∈ l.foldl (fun acc x => if p x then acc else if q x then acc else acc ++ [x]) init ↔
      b ∈ init ∨ (b ∈ l ∧ ¬ p b ∧ ¬ q b) := by
  induction l generalizing init with
  | nil => simp
  | cons x xs ih =>
    simp only [List.foldl_cons, ih, List.mem_cons]
    by_cases hp : p x <;> by_cases hq : q x <;> simp [hp, hq] <;> aesop

theorem mem_foldl_skip_union_prop {α β : Type} (p : α → Prop) [DecidablePred p] (f : α → List β)
    (l : List α) (init : List β) (b : β) :
    b ∈ l.foldl (fun acc x => if p x then acc else acc ++ f x) init ↔
      b ∈ init ∨ ∃ x ∈ l, ¬ p x ∧ b ∈ f x := by
  induction l generalizing init with
  | nil => simp
  | cons x xs ih =>
    simp only [List.foldl_cons, ih, List.mem_cons]
    by_cases hp : p x <;> simp [or_assoc, hp]

theorem secretNames_foldl (ps : List DNSProvider) (init : List String) :
    ps.foldl (fun names provider =>
      match provider.SecretName with
      | none => names
      | some secretName => names ++ [secretName]) init
      = init ++ ps.filterMap (fun provider => provider.SecretName) := by
  induction ps generalizing init with
  | nil => simp
  | cons p ps ih =>
    simp only [List.foldl_cons, ih, List.filterMap_cons]
    cases p.SecretName <;> simp

theorem secretNamesForDNSProviders_eq (shoot : Shoot) :
    secretNamesForDNSProviders shoot =
      match shoot.DNS with
      | none => []
      | some dns => dns.Providers.filterMap (fun provider => provider.SecretName) := by
  unfold secretNamesForDNSProviders
  cases shoot.DNS with
  | none => rfl
  | some dns => simp [secretNames_foldl]

/-! ## Reference extractor -/

/-- C9, as stated, fails: the one provider of `shootWithEmptyTarget` has its target set, to the
empty name; it is not skipped, and the returned names contain the empty name. -/
theorem secretNamesForDNSProviders_empty_name :
    secretNamesForDNSProviders shootWithEmptyTarget = [""] ∧
      ¬ (∀ name ∈ secretNamesForDNSProviders shootWithEmptyTarget, name ≠ "") := by
  decide

/-- C9, amended: the extractor returns, in declaration order, exactly the target names of the
providers whose target is set (`SecretName` is not nil), whatever the name is; when the DNS
section is absent it returns no references. -/
theorem secretNamesForDNSProviders_spec (shoot : Shoot) :
    (shoot.DNS = none → secretNamesForDNSProviders shoot = []) ∧
    (∀ dns, shoot.DNS = some dns →
      secretNamesForDNSProviders shoot =
        (dns.Providers.filter (fun provider => provider.SecretName.isSome)).map
          (fun provider => provider.SecretName.getD "")) := by
  refine ⟨fun h => by simp [secretNamesForDNSProviders_eq, h], fun dns h => ?_⟩
  rw [secretNamesForDNSProviders_eq, h]
  simp only
  induction dns.Providers with
  | nil => rfl
  | cons p ps ih =>
    cases hp : p.SecretName <;> simp [List.filterMap_cons, List.filter_cons, hp, ih]

/-! ## Unreferenced-set calculator -/

/-- C1, as stated, fails: the code tests `GardenerName` on the listed shoot named like the
target, not on the target.  In `skewedStore` the target `shootDeleting` has a deletion timestamp
and does not carry `GardenerName`, the listed `p` carries it: the references of `p` count, and
the protected secret `c`, referenced by `p` alone, is not returned.  In `deletingStore` the
target `shootOwnedDeleting` carries `GardenerName`, the listed `p` does not: the references of
`p` are left out, and `c` is returned. -/
theorem getUnreferencedSecrets_listed_copy_skew :
    ((shootReferenceReconciler.getUnreferencedSecrets ⟨storeSecretLister⟩ ⟨skewedStore, []⟩
        shootDeleting).2 = .ok [] ∧
      (protectedSecretC ∈ skewedStore.secrets.filter
          (fun s => s.Namespace = "garden-dev" ∧ UserManagedSelector s.Labels) ∧
        FinalizerName ∈ protectedSecretC.Finalizers ∧
        ¬ ∃ s ∈ skewedStore.shoots, s.Namespace = shootDeleting.Namespace ∧
            ¬ (s.Name = shootDeleting.Name ∧ beingFinallyRemoved shootDeleting) ∧
            protectedSecretC.Name ∈ secretNamesForDNSProviders s)) ∧
    ((shootReferenceReconciler.getUnreferencedSecrets ⟨storeSecretLister⟩ ⟨deletingStore, []⟩
        shootOwnedDeleting).2 = .ok [protectedSecretC] ∧
      ∃ s ∈ deletingStore.shoots, s.Namespace = shootOwnedDeleting.Namespace ∧
          ¬ (s.Name = shootOwnedDeleting.Name ∧ beingFinallyRemoved shootOwnedDeleting) ∧
          protectedSecretC.Name ∈ secretNamesForDNSProviders s) :=
  ⟨⟨rfl, by decide⟩, ⟨rfl, by decide⟩⟩

/-- C1, amended: when the lister returns `secrets` and the listing of the shoots succeeds,
`getUnreferencedSecrets` returns a list in which a secret occurs if and only if it is among
`secrets`, carries `FinalizerName`, and its name is not a DNS-provider secret name of any shoot
of the namespace, a listed shoot named like the target being left out of that union exactly
when the target has a deletion timestamp and that listed shoot does not carry `GardenerName`. -/
theorem getUnreferencedSecrets_spec (r : shootReferenceReconciler) (c : Client) (shoot : Shoot)
    (secrets : List Secret) (hf : c.fails = false)
    (hl : r.secretLister c.store shoot.Namespace UserManagedSelector = .ok secrets) :
    ∃ released, r.getUnreferencedSecrets c shoot = (c.next, .ok released) ∧
      ∀ secret, secret ∈ released ↔
        (secret ∈ secrets ∧ FinalizerName ∈ secret.Finalizers ∧
          ¬ ∃ s ∈ c.store.shoots, s.Namespace = shoot.Namespace ∧
              ¬ (s.Name = shoot.Name ∧ shoot.DeletionTimestamp ≠ none ∧
                  GardenerName ∉ s.Finalizers) ∧
              secret.Name ∈ secretNamesForDNSProviders s) := by
  refine ⟨_, by simp only [shootReferenceReconciler.getUnreferencedSecrets, hl, Client.ListShoots, hf]; rfl, ?_⟩
  intro secret
  rw [mem_foldl_skip_skip_append]
  simp only [List.not_mem_nil, false_or, decide_eq_true_eq, Bool.not_eq_true', HasFinalizer,
    decide_eq_false_iff_not, not_not, mem_foldl_skip_union_prop, List.mem_filter]
  constructor
  · rintro ⟨h1, h2, h3⟩
    refine ⟨h1, h2, ?_⟩
    rintro ⟨s, hs, hns, hnot, hmem⟩
    apply h3
    refine ⟨s, ⟨hs, hns⟩, ?_, hmem⟩
    rintro ⟨hn, hd, hg⟩
    exact hnot ⟨hn, Option.isSome_iff_ne_none.mp hd, hg⟩
  · rintro ⟨h1, h2, h3⟩
    refine ⟨h1, h2, ?_⟩
    rintro ⟨s, ⟨hs, hns⟩, hnot, hmem⟩
    apply h3
    refine ⟨s, hs, hns, ?_, hmem⟩
    rintro ⟨hn, hd, hg⟩
    exact hnot ⟨hn, Option.isSome_iff_ne_none.mpr hd, hg⟩

/-- C1, amended, at `deletingStore` for the target `shootDeleting`, which is being finally
removed and is listed as it is: its own references are left out. -/
theorem getUnreferencedSecrets_spec_witness :
    ∃ released,
      shootReferenceReconciler.getUnreferencedSecrets ⟨storeSecretLister⟩ ⟨deletingStore, []⟩
          shootDeleting = (Client.next ⟨deletingStore, []⟩, .ok released) ∧
      ∀ secret, secret ∈ released ↔
        (secret ∈ deletingStore.secrets.filter
            (fun s => s.Namespace = "garden-dev" ∧ UserManagedSelector s.Labels) ∧
          FinalizerName ∈ secret.Finalizers ∧
          ¬ ∃ s ∈ deletingStore.shoots, s.Namespace = shootDeleting.Namespace ∧
              ¬ (s.Name = shootDeleting.Name ∧ shootDeleting.DeletionTimestamp ≠ none ∧
                  GardenerName ∉ s.Finalizers) ∧
              secret.Name ∈ secretNamesForDNSProviders s) :=
  getUnreferencedSecrets_spec ⟨storeSecretLister⟩ ⟨deletingStore, []⟩ shootDeleting _ rfl rfl

/-! ## Trigger filter -/

/-- C8, as stated, fails: an update that leaves `shootInFinalRemoval` as it is (same DNS
section, and the old version was already in deletion without the system-ownership finalizer, so
nothing transitioned) still enqueues the key. -/
theorem shootReferenceUpdate_no_transition :
    (Controller.shootReferenceUpdate ⟨[]⟩ shootInFinalRemoval shootInFinalRemoval).shootReferenceQueue
        = ["garden-dev/p"] ∧
      ¬ (shootInFinalRemoval.DNS ≠ shootInFinalRemoval.DNS ∨
          (beingFinallyRemoved shootInFinalRemoval ∧ ¬ beingFinallyRemoved shootInFinalRemoval)) := by
  decide

/-- C8, amended: `shootReferenceUpdate` enqueues the key of the new version if and only if the
DNS section differs between old and new, or the new version has a deletion timestamp and lacks
the system-ownership finalizer (whatever the old version was); otherwise the queue is left as
it was. -/
theorem shootReferenceUpdate_spec (c : Controller) (oldShoot newShoot : Shoot) :
    c.shootReferenceUpdate oldShoot newShoot =
      if oldShoot.DNS ≠ newShoot.DNS ∨ beingFinallyRemoved newShoot then
        { shootReferenceQueue := c.shootReferenceQueue ++ [MetaNamespaceKeyFunc newShoot] }
      else c := by
  unfold Controller.shootReferenceUpdate refChange beingFinallyRemoved HasFinalizer
  by_cases hd : oldShoot.DNS = newShoot.DNS <;>
    by_cases hg : GardenerName ∈ newShoot.Finalizers <;>
    by_cases ht : newShoot.DeletionTimestamp = none <;>
    simp [hd, hg, ht, Option.isSome_iff_ne_none]


/-! ## Requests -/

theorem fails_of_faults_nil (c : Client) (h : c.faults = []) : c.fails = false := by
  simp [Client.fails, h]

theorem map_patched_secret_of_absent (ns name : String) (f : List String → List String)
    (l : List Secret) (h : l.any (Secret.named ns name) = false) :
    l.map (Secret.patched ns name f) = l := by
  induction l with
  | nil => rfl
  | cons x xs ih =>
    simp only [List.any_cons, Bool.or_eq_false_iff] at h
    simp [Secret.patched, h.1, ih h.2]

theorem patchSecret_shoots (c : Client) (ns name : String) (f : List String → List String) :
    (c.patchSecret ns name f).1.store.shoots = c.store.shoots := by
  unfold Client.patchSecret Client.next
  split_ifs <;> rfl

theorem patchSecret_faults (c : Client) (ns name : String) (f : List String → List String) :
    (c.patchSecret ns name f).1.faults = c.faults.tail := by
  unfold Client.patchSecret Client.next
  split_ifs <;> rfl

theorem patchSecret_secrets (c : Client) (ns name : String) (f : List String → List String)
    (h : (c.patchSecret ns name f).2 ≠ some .unavailable) :
    (c.patchSecret ns name f).1.store.secrets = c.store.secrets.map (Secret.patched ns name f) := by
  cases h1 : c.fails
  · cases h2 : c.store.secrets.any (Secret.named ns name)
    · simp [Client.patchSecret, Client.next, h1, h2, map_patched_secret_of_absent _ _ _ _ h2]
    · simp [Client.patchSecret, Client.next, h1, h2]
  · simp [Client.patchSecret, h1] at h

theorem patchSecret_secrets_cases (c : Client) (ns name : String) (f : List String → List String) :
    (c.patchSecret ns name f).1.store.secrets = c.store.secrets ∨
    (c.patchSecret ns name f).1.store.secrets = c.store.secrets.map (Secret.patched ns name f) := by
  unfold Client.patchSecret Client.next
  split_ifs
  · exact Or.inl rfl
  · exact Or.inr rfl
  · exact Or.inl rfl

theorem patchSecret_available (c : Client) (ns name : String) (f : List String → List String)
    (h : c.fails = false) : (c.patchSecret ns name f).2 ≠ some .unavailable := by
  unfold Client.patchSecret
  simp only [h, Bool.false_eq_true, if_false]
  split_ifs <;> simp

theorem patchSecret_found (c : Client) (ns name : String) (f : List String → List String)
    (h : c.fails = false) (s : Secret) (hs : s ∈ c.store.secrets)
    (hk : s.named ns name = true) : (c.patchSecret ns name f).2 = none := by
  unfold Client.patchSecret
  have : c.store.secrets.any (Secret.named ns name) = true := by
    simp only [List.any_eq_true]
    exact ⟨s, hs, hk⟩
  simp only [h, this, Bool.false_eq_true, if_false, if_true]

theorem patchShoot_secrets (c : Client) (ns name : String) (f : List String → List String) :
    (c.patchShoot ns name f).1.store.secrets = c.store.secrets := by
  unfold Client.patchShoot Client.next
  split_ifs <;> rfl

theorem patchShoot_faults (c : Client) (ns name : String) (f : List String → List String) :
    (c.patchShoot ns name f).1.faults = c.faults.tail := by
  unfold Client.patchShoot Client.next
  split_ifs <;> rfl

theorem patchShoot_shoots (c : Client) (ns name : String) (f : List String → List String)
    (h : (c.patchShoot ns name f).2 = none) :
    (c.patchShoot ns name f).1.store.shoots = c.store.shoots.map (Shoot.patched ns name f) := by
  cases h1 : c.fails
  · cases h2 : c.store.shoots.any (Shoot.named ns name)
    · simp [Client.patchShoot, h1, h2] at h
    · simp [Client.patchShoot, Client.next, h1, h2]
  · simp [Client.patchShoot, h1] at h

theorem patchShoot_found (c : Client) (ns name : String) (f : List String → List String)
    (h : c.fails = false) (s : Shoot) (hs : s ∈ c.store.shoots)
    (hk : s.named ns name = true) : (c.patchShoot ns name f).2 = none := by
  unfold Client.patchShoot
  have : c.store.shoots.any (Shoot.named ns name) = true := by
    simp only [List.any_eq_true]
    exact ⟨s, hs, hk⟩
  simp only [h, this, Bool.false_eq_true, if_false, if_true]

/-! ## The release fan-out -/

theorem removeFinalizer_idem (f : String) (fs : List String) :
    removeFinalizer f (removeFinalizer f fs) = removeFinalizer f fs := by
  simp [removeFinalizer, List.filter_filter]

theorem not_mem_removeFinalizer (f : String) (fs : List String) : f ∉ removeFinalizer f fs := by
  simp [removeFinalizer, List.mem_filter]

theorem removeFinalizer_of_not_mem (f : String) (fs : List String) (h : f ∉ fs) :
    removeFinalizer f fs = fs := by
  simp only [removeFinalizer, List.filter_eq_self]
  intro a ha
  simp only [ne_eq, decide_not, Bool.not_eq_true', decide_eq_false_iff_not]
  rintro rfl
  exact h ha

theorem mem_removeFinalizer_of_ne (f g : String) (fs : List String) (h : g ≠ f) :
    g ∈ removeFinalizer f fs ↔ g ∈ fs := by
  simp [removeFinalizer, List.mem_filter, h]

theorem mem_addFinalizer (f : String) (fs : List String) : f ∈ addFinalizer f fs := by
  unfold addFinalizer
  split_ifs with h
  · exact h
  · simp

theorem addFinalizer_of_mem (f : String) (fs : List String) (h : f ∈ fs) :
    addFinalizer f fs = fs := by
  simp [addFinalizer, h]

theorem mem_addFinalizer_of_ne (f g : String) (fs : List String) (h : g ≠ f) :
    g ∈ addFinalizer f fs ↔ g ∈ fs := by
  unfold addFinalizer
  split_ifs <;> simp [h]

theorem releasedAt_nil (secrets : List Secret) : releasedAt [] secrets = secrets := by
  unfold releasedAt
  conv_rhs => rw [← List.map_id secrets]
  apply List.map_congr_left
  intro s _
  simp [Secret.released]

theorem releasedAt_cons (ns name : String) (keys : List (String × String)) (secrets : List Secret) :
    releasedAt ((ns, name) :: keys) secrets =
      releasedAt keys (secrets.map (Secret.patched ns name (removeFinalizer FinalizerName))) := by
  simp only [releasedAt, List.map_map]
  apply List.map_congr_left
  intro s _
  simp only [Function.comp, Secret.patched, Secret.named, Secret.released, List.mem_cons,
    Prod.mk.injEq, decide_eq_true_eq]
  by_cases h1 : s.Namespace = ns ∧ s.Name = name
  · obtain ⟨rfl, rfl⟩ := h1
    by_cases h2 : (s.Namespace, s.Name) ∈ keys
    · simp [h2, removeFinalizer_idem]
    · simp [h2]
  · by_cases h2 : (s.Namespace, s.Name) ∈ keys <;> simp [h1, h2]

theorem releaseTask_shoots (s : Secret) (c : Client) :
    (releaseUnreferencedSecretTask s c).1.store.shoots = c.store.shoots := by
  simp [releaseUnreferencedSecretTask, PatchRemoveFinalizersSecret, patchSecret_shoots]

theorem releaseTask_faults (s : Secret) (c : Client) :
    (releaseUnreferencedSecretTask s c).1.faults = c.faults.tail := by
  simp [releaseUnreferencedSecretTask, PatchRemoveFinalizersSecret, patchSecret_faults]

theorem IgnoreNotFound_eq_none (e : Option StoreError) :
    IgnoreNotFound e = none ↔ e ≠ some .unavailable := by
  cases e with
  | none => simp [IgnoreNotFound]
  | some x => cases x <;> simp [IgnoreNotFound]

theorem releaseTask_secrets (s : Secret) (c : Client)
    (h : (releaseUnreferencedSecretTask s c).2 = none) :
    (releaseUnreferencedSecretTask s c).1.store.secrets =
      c.store.secrets.map (Secret.patched s.Namespace s.Name (removeFinalizer FinalizerName)) := by
  simp only [releaseUnreferencedSecretTask, IgnoreNotFound_eq_none] at h
  exact patchSecret_secrets _ _ _ _ h

theorem releaseTask_ok (s : Secret) (c : Client) (h : c.fails = false) :
    (releaseUnreferencedSecretTask s c).2 = none := by
  simp only [releaseUnreferencedSecretTask, IgnoreNotFound_eq_none]
  exact patchSecret_available _ _ _ _ h

theorem runTasks_release_shoots (l : List Secret) (c : Client) :
    (runTasks (l.map releaseUnreferencedSecretTask) c).1.store.shoots = c.store.shoots := by
  induction l generalizing c with
  | nil => rfl
  | cons s l ih => simp only [List.map_cons, runTasks, ih, releaseTask_shoots]

theorem runTasks_release_ok (l : List Secret) (c : Client) (h : c.faults = []) :
    (runTasks (l.map releaseUnreferencedSecretTask) c).1.faults = [] ∧
      (runTasks (l.map releaseUnreferencedSecretTask) c).2 = [] := by
  induction l generalizing c with
  | nil => exact ⟨h, rfl⟩
  | cons s l ih =>
    have h1 : (releaseUnreferencedSecretTask s c).1.faults = [] := by
      rw [releaseTask_faults, h]; rfl
    simp only [List.map_cons, runTasks, releaseTask_ok s c (fails_of_faults_nil c h),
      Option.toList, List.nil_append]
    exact ih _ h1

theorem runTasks_release_secrets (l : List Secret) (c : Client)
    (h : (runTasks (l.map releaseUnreferencedSecretTask) c).2 = []) :
    (runTasks (l.map releaseUnreferencedSecretTask) c).1.store.secrets =
      releasedAt (l.map (fun s => (s.Namespace, s.Name))) c.store.secrets := by
  induction l generalizing c with
  | nil => simp [runTasks, releasedAt_nil]
  | cons s l ih =>
    simp only [List.map_cons, runTasks, List.append_eq_nil] at h ⊢
    have h1 : (releaseUnreferencedSecretTask s c).2 = none := by
      cases hx : (releaseUnreferencedSecretTask s c).2 with
      | none => rfl
      | some e => rw [hx] at h; simp [Option.toList] at h
    rw [ih _ h.2, releaseTask_secrets s c h1, releasedAt_cons]

/-! ## The grant fan-out -/

theorem named_iff (ns name : String) (s : Secret) :
    s.named ns name = true ↔ s.Namespace = ns ∧ s.Name = name := by
  simp [Secret.named]

theorem find_named_of_nodup (l : List Secret) (ns name : String) (s : Secret)
    (hnd : (l.map (fun s => (s.Namespace, s.Name))).Nodup) (hs : s ∈ l)
    (hk : s.Namespace = ns ∧ s.Name = name) :
    l.find? (Secret.named ns name) = some s := by
  induction l with
  | nil => simp at hs
  | cons x xs ih =>
    simp only [List.map_cons, List.nodup_cons, List.mem_map, not_exists, not_and] at hnd
    rcases List.mem_cons.mp hs with rfl | hmem
    · simp [List.find?_cons, Secret.named, hk]
    · have hx : x.named ns name = false := by
        simp only [Secret.named, decide_eq_false_iff_not]
        rintro ⟨h1, h2⟩
        exact hnd.1 s hmem (by simp [h1, h2, hk.1, hk.2])
      simp only [List.find?_cons, hx]
      exact ih hnd.2 hmem

theorem eq_of_find_named (l : List Secret) (ns name : String) (s t : Secret)
    (hnd : (l.map (fun s => (s.Namespace, s.Name))).Nodup)
    (hfind : l.find? (Secret.named ns name) = some s) (ht : t ∈ l)
    (hk : t.Namespace = ns ∧ t.Name = name) : t = s := by
  have := find_named_of_nodup l ns name t hnd ht hk
  rw [hfind] at this
  exact (Option.some.inj this).symm

theorem userManaged_iff (labels : List (String × String)) :
    UserManagedSelector labels = true ↔ (labels.lookup GardenRole).isSome = false := by
  unfold UserManagedSelector
  cases labels.lookup GardenRole <;> simp

theorem grantedAt_keys (ns : String) (names : List String) (l : List Secret) :
    (grantedAt ns names l).map (fun s => (s.Namespace, s.Name)) =
      l.map (fun s => (s.Namespace, s.Name)) := by
  simp only [grantedAt, List.map_map]
  apply List.map_congr_left
  intro s _
  simp only [Function.comp, Secret.granted]
  split_ifs <;> rfl

theorem grantedAt_nil (ns : String) (l : List Secret) : grantedAt ns [] l = l := by
  unfold grantedAt
  conv_rhs => rw [← List.map_id l]
  apply List.map_congr_left
  intro s _
  simp [Secret.granted]

theorem grantedAt_cons (ns name : String) (names : List String) (l : List Secret) :
    grantedAt ns (name :: names) l = grantedAt ns names (grantedAt ns [name] l) := by
  simp only [grantedAt, List.map_map]
  apply List.map_congr_left
  intro s _
  simp only [Function.comp, Secret.granted, List.mem_cons, List.mem_singleton, List.not_mem_nil,
    or_false]
  by_cases hA : s.Namespace = ns ∧ s.Name = name ∧ UserManagedSelector s.Labels = true
  · have hC : s.Namespace = ns ∧ (s.Name = name ∨ s.Name ∈ names) ∧
        UserManagedSelector s.Labels = true := ⟨hA.1, Or.inl hA.2.1, hA.2.2⟩
    rw [if_pos hC]
    simp only [if_pos hA]
    by_cases hB : s.Namespace = ns ∧ s.Name ∈ names ∧ UserManagedSelector s.Labels = true
    · rw [if_pos hB, addFinalizer_of_mem _ _ (mem_addFinalizer FinalizerName s.Finalizers)]
    · rw [if_neg hB]
  · simp only [if_neg hA]
    by_cases hB : s.Namespace = ns ∧ s.Name ∈ names ∧ UserManagedSelector s.Labels = true
    · have hC : s.Namespace = ns ∧ (s.Name = name ∨ s.Name ∈ names) ∧
          UserManagedSelector s.Labels = true := ⟨hB.1, Or.inr hB.2.1, hB.2.2⟩
      rw [if_pos hC, if_pos hB]
    · have hC : ¬ (s.Namespace = ns ∧ (s.Name = name ∨ s.Name ∈ names) ∧
          UserManagedSelector s.Labels = true) := by
        rintro ⟨a, b | b, c⟩
        · exact hA ⟨a, b, c⟩
        · exact hB ⟨a, b, c⟩
      rw [if_neg hC, if_neg hB]

theorem exists_granted_iff (ns : String) (names : List String) (l : List Secret)
    (p : String → String → List (String × String) → Prop) :
    (∃ s ∈ grantedAt ns names l, p s.Namespace s.Name s.Labels) ↔
      ∃ s ∈ l, p s.Namespace s.Name s.Labels := by
  simp only [grantedAt, List.mem_map]
  constructor
  · rintro ⟨s, ⟨t, ht, rfl⟩, hp⟩
    refine ⟨t, ht, ?_⟩
    unfold Secret.granted at hp
    split_ifs at hp <;> exact hp
  · rintro ⟨t, ht, hp⟩
    refine ⟨_, ⟨t, ht, rfl⟩, ?_⟩
    unfold Secret.granted
    split_ifs <;> exact hp

theorem grantedAt_single_of_find (l : List Secret) (ns name : String) (s : Secret)
    (hnd : (l.map (fun s => (s.Namespace, s.Name))).Nodup)
    (hfind : l.find? (Secret.named ns name) = some s) :
    grantedAt ns [name] l =
      if UserManagedSelector s.Labels = true ∧ FinalizerName ∉ s.Finalizers then
        l.map (Secret.patched ns name (addFinalizer FinalizerName))
      else l := by
  have key : ∀ t ∈ l, t.Namespace = ns ∧ t.Name = name → t = s :=
    fun t ht hk => eq_of_find_named l ns name s t hnd hfind ht hk
  split_ifs with hc
  · simp only [grantedAt, Secret.granted]
    apply List.map_congr_left
    intro t ht
    simp only [Secret.granted, List.mem_singleton, Secret.patched]
    by_cases hk : t.Namespace = ns ∧ t.Name = name
    · have := key t ht hk
      subst this
      have h3 : t.Namespace = ns ∧ t.Name = name ∧ UserManagedSelector t.Labels = true :=
        ⟨hk.1, hk.2, hc.1⟩
      rw [if_pos h3, if_pos ((named_iff ns name t).mpr hk)]
    · have h3 : ¬ (t.Namespace = ns ∧ t.Name = name ∧ UserManagedSelector t.Labels = true) :=
        fun h => hk ⟨h.1, h.2.1⟩
      have h4 : ¬ (t.named ns name = true) := fun h => hk ((named_iff ns name t).mp h)
      rw [if_neg h3, if_neg h4]
  · simp only [grantedAt, Secret.granted]
    conv_rhs => rw [← List.map_id l]
    apply List.map_congr_left
    intro t ht
    simp only [Secret.granted, List.mem_singleton, id]
    by_cases hk : t.Namespace = ns ∧ t.Name = name ∧ UserManagedSelector t.Labels = true
    · have := key t ht ⟨hk.1, hk.2.1⟩
      subst this
      have hfin : FinalizerName ∈ t.Finalizers := by
        by_contra hn
        exact hc ⟨hk.2.2, hn⟩
      rw [if_pos hk, addFinalizer_of_mem _ _ hfin]
    · rw [if_neg hk]

theorem handleTask_unavailable (shoot : Shoot) (name : String) (st : Client × Nat)
    (hf : st.1.fails = true) :
    handleReferencedSecretTask shoot name st = ((st.1.next, st.2), some .unavailable) := by
  simp [handleReferencedSecretTask, Client.GetSecret, hf]

theorem handleTask_notFound (shoot : Shoot) (name : String) (st : Client × Nat)
    (hf : st.1.fails = false)
    (hfind : st.1.store.secrets.find? (Secret.named shoot.Namespace name) = none) :
    handleReferencedSecretTask shoot name st = ((st.1.next, st.2), some .notFound) := by
  simp [handleReferencedSecretTask, Client.GetSecret, hf, hfind]

theorem handleTask_managed (shoot : Shoot) (name : String) (st : Client × Nat) (s : Secret)
    (hf : st.1.fails = false)
    (hfind : st.1.store.secrets.find? (Secret.named shoot.Namespace name) = some s)
    (hl : UserManagedSelector s.Labels = false) :
    handleReferencedSecretTask shoot name st = ((st.1.next, st.2), none) := by
  have : (s.Labels.lookup GardenRole).isSome = true := by
    unfold UserManagedSelector at hl
    cases h : s.Labels.lookup GardenRole
    · simp [h] at hl
    · rfl
  simp [handleReferencedSecretTask, Client.GetSecret, hf, hfind, this]

theorem handleTask_protected (shoot : Shoot) (name : String) (st : Client × Nat) (s : Secret)
    (hf : st.1.fails = false)
    (hfind : st.1.store.secrets.find? (Secret.named shoot.Namespace name) = some s)
    (hl : UserManagedSelector s.Labels = true) (hfin : FinalizerName ∈ s.Finalizers) :
    handleReferencedSecretTask shoot name st = ((st.1.next, 1), none) := by
  have := (userManaged_iff s.Labels).mp hl
  simp [handleReferencedSecretTask, Client.GetSecret, hf, hfind, this, HasFinalizer, hfin]

theorem handleTask_grant (shoot : Shoot) (name : String) (st : Client × Nat) (s : Secret)
    (hf : st.1.fails = false)
    (hfind : st.1.store.secrets.find? (Secret.named shoot.Namespace name) = some s)
    (hl : UserManagedSelector s.Labels = true) (hfin : FinalizerName ∉ s.Finalizers) :
    handleReferencedSecretTask shoot name st =
      (((st.1.next.patchSecret shoot.Namespace name (addFinalizer FinalizerName)).1, 1),
        (st.1.next.patchSecret shoot.Namespace name (addFinalizer FinalizerName)).2) := by
  have := (userManaged_iff s.Labels).mp hl
  have hk := (named_iff _ _ _).mp (List.find?_some hfind)
  simp [handleReferencedSecretTask, Client.GetSecret, hf, hfind, this, HasFinalizer, hfin,
    PatchFinalizersSecret, hk.1, hk.2]

theorem handleTask_shoots (shoot : Shoot) (name : String) (st : Client × Nat) :
    (handleReferencedSecretTask shoot name st).1.1.store.shoots = st.1.store.shoots := by
  cases hf : st.1.fails
  · cases hfind : st.1.store.secrets.find? (Secret.named shoot.Namespace name) with
    | none => rw [handleTask_notFound shoot name st hf hfind]; rfl
    | some s =>
      cases hl : UserManagedSelector s.Labels
      · rw [handleTask_managed shoot name st s hf hfind hl]; rfl
      · by_cases hfin : FinalizerName ∈ s.Finalizers
        · rw [handleTask_protected shoot name st s hf hfind hl hfin]; rfl
        · rw [handleTask_grant shoot name st s hf hfind hl hfin]
          simp only [patchSecret_shoots]; rfl
  · rw [handleTask_unavailable shoot name st hf]; rfl

theorem next_faults_nil (c : Client) (h : c.faults = []) : c.next.faults = [] := by
  simp [Client.next, h]

theorem handleTask_faults (shoot : Shoot) (name : String) (st : Client × Nat)
    (h : st.1.faults = []) :
    (handleReferencedSecretTask shoot name st).1.1.faults = [] := by
  have hn := next_faults_nil st.1 h
  cases hf : st.1.fails
  · cases hfind : st.1.store.secrets.find? (Secret.named shoot.Namespace name) with
    | none => rw [handleTask_notFound shoot name st hf hfind]; exact hn
    | some s =>
      cases hl : UserManagedSelector s.Labels
      · rw [handleTask_managed shoot name st s hf hfind hl]; exact hn
      · by_cases hfin : FinalizerName ∈ s.Finalizers
        · rw [handleTask_protected shoot name st s hf hfind hl hfin]; exact hn
        · rw [handleTask_grant shoot name st s hf hfind hl hfin]
          simp only [patchSecret_faults, hn]; rfl
  · rw [handleTask_unavailable shoot name st hf]; exact hn

/-- A task that ends without error found the secret, left the shoots alone, and granted the
protection exactly when the secret is user-managed. -/
theorem handleTask_spec (shoot : Shoot) (name : String) (st : Client × Nat)
    (hnd : (st.1.store.secrets.map (fun s => (s.Namespace, s.Name))).Nodup)
    (h : (handleReferencedSecretTask shoot name st).2 = none) :
    (handleReferencedSecretTask shoot name st).1.1.store.secrets =
        grantedAt shoot.Namespace [name] st.1.store.secrets ∧
      ∃ s, st.1.store.secrets.find? (Secret.named shoot.Namespace name) = some s ∧
        (handleReferencedSecretTask shoot name st).1.2 =
          if UserManagedSelector s.Labels = true then 1 else st.2 := by
  cases hf : st.1.fails
  · cases hfind : st.1.store.secrets.find? (Secret.named shoot.Namespace name) with
    | none => rw [handleTask_notFound shoot name st hf hfind] at h; simp at h
    | some s =>
      rw [grantedAt_single_of_find _ _ _ s hnd hfind]
      cases hl : UserManagedSelector s.Labels
      · rw [handleTask_managed shoot name st s hf hfind hl]
        exact ⟨by simp [Client.next, hl], s, rfl, by simp [hl]⟩
      · by_cases hfin : FinalizerName ∈ s.Finalizers
        · rw [handleTask_protected shoot name st s hf hfind hl hfin]
          exact ⟨by simp [Client.next, hfin], s, rfl, by simp [hl]⟩
        · rw [handleTask_grant shoot name st s hf hfind hl hfin] at h ⊢
          simp only at h
          refine ⟨?_, s, rfl, by simp [hl]⟩
          simp only [hl, hfin, not_false_eq_true, and_self, if_true]
          rw [patchSecret_secrets _ _ _ _ (by rw [h]; simp)]
          rfl
  · rw [handleTask_unavailable shoot name st hf] at h; simp at h

theorem handleTask_ok (shoot : Shoot) (name : String) (st : Client × Nat)
    (hf : st.1.faults = [])
    (hex : ∃ s ∈ st.1.store.secrets, s.Namespace = shoot.Namespace ∧ s.Name = name) :
    (handleReferencedSecretTask shoot name st).2 = none := by
  have hf1 := fails_of_faults_nil _ hf
  cases hfind : st.1.store.secrets.find? (Secret.named shoot.Namespace name) with
  | none =>
    obtain ⟨s, hs, hk⟩ := hex
    have := List.find?_eq_none.mp hfind s hs
    exact absurd ((named_iff _ _ _).mpr hk) this
  | some s =>
    cases hl : UserManagedSelector s.Labels
    · rw [handleTask_managed shoot name st s hf1 hfind hl]
    · by_cases hfin : FinalizerName ∈ s.Finalizers
      · rw [handleTask_protected shoot name st s hf1 hfind hl hfin]
      · rw [handleTask_grant shoot name st s hf1 hfind hl hfin]
        exact patchSecret_found _ _ _ _ (fails_of_faults_nil _ (next_faults_nil _ hf)) s
          (List.mem_of_find?_eq_some hfind) (List.find?_some hfind)

theorem runTasks_handle_shoots (shoot : Shoot) (names : List String) (st : Client × Nat) :
    (runTasks (names.map (handleReferencedSecretTask shoot)) st).1.1.store.shoots =
      st.1.store.shoots := by
  induction names generalizing st with
  | nil => rfl
  | cons n names ih => simp only [List.map_cons, runTasks, ih, handleTask_shoots]

theorem runTasks_handle_faults (shoot : Shoot) (names : List String) (st : Client × Nat)
    (h : st.1.faults = []) :
    (runTasks (names.map (handleReferencedSecretTask shoot)) st).1.1.faults = [] := by
  induction names generalizing st with
  | nil => exact h
  | cons n names ih =>
    simp only [List.map_cons, runTasks]
    exact ih _ (handleTask_faults shoot n st h)

theorem toList_append_eq_nil (e : Option StoreError) (l : List StoreError) :
    e.toList ++ l = [] ↔ e = none ∧ l = [] := by
  cases e <;> simp [Option.toList]

/-- A grant fan-out that ends without error found every referenced secret, added the
protective finalizer to the user-managed ones, and set `added` exactly when one of them is
user-managed. -/
theorem runTasks_handle_spec (shoot : Shoot) (names : List String) (st : Client × Nat)
    (hnd : (st.1.store.secrets.map (fun s => (s.Namespace, s.Name))).Nodup)
    (h : (runTasks (names.map (handleReferencedSecretTask shoot)) st).2 = []) :
    (runTasks (names.map (handleReferencedSecretTask shoot)) st).1.1.store.secrets =
        grantedAt shoot.Namespace names st.1.store.secrets ∧
      (∀ name ∈ names, ∃ s ∈ st.1.store.secrets,
        s.Namespace = shoot.Namespace ∧ s.Name = name) ∧
      ((runTasks (names.map (handleReferencedSecretTask shoot)) st).1.2 ≠ 0 ↔
        st.2 ≠ 0 ∨ ∃ name ∈ names, ∃ s ∈ st.1.store.secrets,
          s.Namespace = shoot.Namespace ∧ s.Name = name ∧ UserManagedSelector s.Labels = true) := by
  induction names generalizing st with
  | nil => simp [runTasks, grantedAt_nil]
  | cons n names ih =>
    simp only [List.map_cons, runTasks, toList_append_eq_nil] at h ⊢
    obtain ⟨hsec, s, hfind, hadded⟩ := handleTask_spec shoot n st hnd h.1
    have hnd1 : ((handleReferencedSecretTask shoot n st).1.1.store.secrets.map
        (fun s => (s.Namespace, s.Name))).Nodup := by
      rw [hsec, grantedAt_keys]; exact hnd
    obtain ⟨ih1, ih2, ih3⟩ := ih _ hnd1 h.2
    have hsmem := List.mem_of_find?_eq_some hfind
    have hsk := (named_iff _ _ _).mp (List.find?_some hfind)
    refine ⟨?_, ?_, ?_⟩
    · rw [ih1, hsec, ← grantedAt_cons]
    · intro name hname
      rcases List.mem_cons.mp hname with rfl | hmem
      · exact ⟨s, hsmem, hsk⟩
      · have := ih2 name hmem
        rw [hsec] at this
        exact (exists_granted_iff shoot.Namespace [n] st.1.store.secrets
          (fun a b _ => a = shoot.Namespace ∧ b = name)).mp this
    · rw [ih3, hadded, hsec]
      have hrest : (∃ name ∈ names, ∃ t ∈ grantedAt shoot.Namespace [n] st.1.store.secrets,
          t.Namespace = shoot.Namespace ∧ t.Name = name ∧ UserManagedSelector t.Labels = true) ↔
          ∃ name ∈ names, ∃ t ∈ st.1.store.secrets,
          t.Namespace = shoot.Namespace ∧ t.Name = name ∧ UserManagedSelector t.Labels = true := by
        constructor
        · rintro ⟨name, hname, hx⟩
          exact ⟨name, hname, (exists_granted_iff shoot.Namespace [n] st.1.store.secrets
            (fun a b c => a = shoot.Namespace ∧ b = name ∧ UserManagedSelector c = true)).mp hx⟩
        · rintro ⟨name, hname, hx⟩
          exact ⟨name, hname, (exists_granted_iff shoot.Namespace [n] st.1.store.secrets
            (fun a b c => a = shoot.Namespace ∧ b = name ∧ UserManagedSelector c = true)).mpr hx⟩
      rw [hrest]
      constructor
      · rintro (h1 | ⟨name, hname, hx⟩)
        · by_cases hu : UserManagedSelector s.Labels = true
          · exact Or.inr ⟨n, List.mem_cons_self _ _, s, hsmem, hsk.1, hsk.2, hu⟩
          · rw [if_neg hu] at h1
            exact Or.inl h1
        · exact Or.inr ⟨name, List.mem_cons_of_mem _ hname, hx⟩
      · rintro (h1 | ⟨name, hname, t, ht, hk1, hk2, hu⟩)
        · by_cases hu : UserManagedSelector s.Labels = true
          · rw [if_pos hu]; exact Or.inl (by decide)
          · rw [if_neg hu]; exact Or.inl h1
        · rcases List.mem_cons.mp hname with rfl | hmem
          · have := eq_of_find_named _ _ _ s t hnd hfind ht ⟨hk1, hk2⟩
            subst this
            rw [if_pos hu]; exact Or.inl (by decide)
          · exact Or.inr ⟨name, hmem, t, ht, hk1, hk2, hu⟩

theorem handleTask_exists (shoot : Shoot) (name : String) (st : Client × Nat) (a b : String) :
    (∃ s ∈ (handleReferencedSecretTask shoot name st).1.1.store.secrets,
        s.Namespace = a ∧ s.Name = b) ↔
      ∃ s ∈ st.1.store.secrets, s.Namespace = a ∧ s.Name = b := by
  have hmap : (∃ s ∈ st.1.store.secrets.map
      (Secret.patched shoot.Namespace name (addFinalizer FinalizerName)),
        s.Namespace = a ∧ s.Name = b) ↔ ∃ s ∈ st.1.store.secrets, s.Namespace = a ∧ s.Name = b := by
    simp only [List.mem_map]
    constructor
    · rintro ⟨s, ⟨t, ht, rfl⟩, hp⟩
      refine ⟨t, ht, ?_⟩
      unfold Secret.patched at hp
      split_ifs at hp <;> exact hp
    · rintro ⟨t, ht, hp⟩
      refine ⟨_, ⟨t, ht, rfl⟩, ?_⟩
      unfold Secret.patched
      split_ifs <;> exact hp
  cases hf : st.1.fails
  · cases hfind : st.1.store.secrets.find? (Secret.named shoot.Namespace name) with
    | none => rw [handleTask_notFound shoot name st hf hfind]; rfl
    | some s =>
      cases hl : UserManagedSelector s.Labels
      · rw [handleTask_managed shoot name st s hf hfind hl]; rfl
      · by_cases hfin : FinalizerName ∈ s.Finalizers
        · rw [handleTask_protected shoot name st s hf hfind hl hfin]; rfl
        · rw [handleTask_grant shoot name st s hf hfind hl hfin]
          rcases patchSecret_secrets_cases st.1.next shoot.Namespace name
            (addFinalizer FinalizerName) with h | h
          · simp only [h]; rfl
          · simp only [h]; exact hmap
  · rw [handleTask_unavailable shoot name st hf]; rfl

theorem runTasks_handle_ok (shoot : Shoot) (names : List String) (st : Client × Nat)
    (hf : st.1.faults = [])
    (hex : ∀ name ∈ names, ∃ s ∈ st.1.store.secrets,
      s.Namespace = shoot.Namespace ∧ s.Name = name) :
    (runTasks (names.map (handleReferencedSecretTask shoot)) st).2 = [] := by
  induction names generalizing st with
  | nil => rfl
  | cons n names ih =>
    simp only [List.map_cons, runTasks, toList_append_eq_nil]
    refine ⟨handleTask_ok shoot n st hf (hex n (List.mem_cons_self _ _)), ?_⟩
    apply ih _ (handleTask_faults shoot n st hf)
    intro name hname
    exact (handleTask_exists shoot n st _ _).mpr (hex name (List.mem_cons_of_mem _ hname))

/-! ## The pass -/

theorem getUnreferencedSecrets_eq (r : shootReferenceReconciler) (c : Client) (shoot : Shoot)
    (secrets : List Secret) (hf : c.fails = false)
    (hl : r.secretLister c.store shoot.Namespace UserManagedSelector = .ok secrets) :
    r.getUnreferencedSecrets c shoot =
      (c.next, .ok (secretsToRelease shoot
        (c.store.shoots.filter (fun s => s.Namespace = shoot.Namespace)) secrets)) := by
  simp only [shootReferenceReconciler.getUnreferencedSecrets, hl, Client.ListShoots, hf]
  rfl

theorem mem_referencedSecretNames (shoot : Shoot) (shoots : List Shoot) (name : String) :
    name ∈ referencedSecretNames shoot shoots ↔
      ∃ s ∈ shoots, ¬ (s.Name = shoot.Name ∧ shoot.DeletionTimestamp ≠ none ∧
        GardenerName ∉ s.Finalizers) ∧ name ∈ secretNamesForDNSProviders s := by
  unfold referencedSecretNames
  rw [mem_foldl_skip_union_prop]
  simp only [List.not_mem_nil, false_or, HasFinalizer, Bool.not_eq_true', decide_eq_false_iff_not,
    Option.isSome_iff_ne_none]

theorem mem_secretsToRelease (shoot : Shoot) (shoots : List Shoot) (secrets : List Secret)
    (secret : Secret) :
    secret ∈ secretsToRelease shoot shoots secrets ↔
      secret ∈ secrets ∧ FinalizerName ∈ secret.Finalizers ∧
        secret.Name ∉ referencedSecretNames shoot shoots := by
  unfold secretsToRelease
  rw [mem_foldl_skip_skip_append]
  simp [HasFinalizer]

theorem Parallel_none {σ : Type} (fns : List (TaskFn σ)) (s : σ) :
    (Parallel fns s).2 = none ↔ (runTasks fns s).2 = [] := by
  unfold Parallel
  simp only
  split_ifs with h <;> simp [h]

theorem Parallel_fst {σ : Type} (fns : List (TaskFn σ)) (s : σ) :
    (Parallel fns s).1 = (runTasks fns s).1 := rfl

/-- A release phase that ends without error: the lister and the listing succeeded, the shoots
are as before, and the protective finalizer is gone from the secrets to release. -/
theorem release_success (r : shootReferenceReconciler) (c : Client) (shoot : Shoot)
    (h : (r.releaseUnreferencedSecrets c shoot).2 = none) :
    ∃ secrets, r.secretLister c.store shoot.Namespace UserManagedSelector = .ok secrets ∧
      (r.releaseUnreferencedSecrets c shoot).1.store.shoots = c.store.shoots ∧
      (r.releaseUnreferencedSecrets c shoot).1.store.secrets =
        releasedAt ((secretsToRelease shoot
          (c.store.shoots.filter (fun s => s.Namespace = shoot.Namespace)) secrets).map
            (fun s => (s.Namespace, s.Name))) c.store.secrets := by
  cases hl : r.secretLister c.store shoot.Namespace UserManagedSelector with
  | error e =>
    simp [shootReferenceReconciler.releaseUnreferencedSecrets,
      shootReferenceReconciler.getUnreferencedSecrets, hl] at h
  | ok secrets =>
    cases hf : c.fails
    · refine ⟨secrets, rfl, ?_⟩
      simp only [shootReferenceReconciler.releaseUnreferencedSecrets,
        getUnreferencedSecrets_eq r c shoot secrets hf hl] at h ⊢
      rw [Parallel_none] at h
      rw [Parallel_fst, runTasks_release_shoots, runTasks_release_secrets _ _ h]
      exact ⟨rfl, rfl⟩
    · simp [shootReferenceReconciler.releaseUnreferencedSecrets,
        shootReferenceReconciler.getUnreferencedSecrets, hl, Client.ListShoots, hf] at h

theorem release_ok (r : shootReferenceReconciler) (c : Client) (shoot : Shoot)
    (secrets : List Secret) (hf : c.faults = [])
    (hl : r.secretLister c.store shoot.Namespace UserManagedSelector = .ok secrets) :
    (r.releaseUnreferencedSecrets c shoot).2 = none ∧
      (r.releaseUnreferencedSecrets c shoot).1.faults = [] := by
  simp only [shootReferenceReconciler.releaseUnreferencedSecrets,
    getUnreferencedSecrets_eq r c shoot secrets (fails_of_faults_nil c hf) hl]
  have := runTasks_release_ok (secretsToRelease shoot
    (c.store.shoots.filter (fun s => s.Namespace = shoot.Namespace)) secrets) c.next
    (next_faults_nil c hf)
  exact ⟨(Parallel_none _ _).mpr this.2, this.1⟩

theorem releasedAt_keys (keys : List (String × String)) (l : List Secret) :
    (releasedAt keys l).map (fun s => (s.Namespace, s.Name)) =
      l.map (fun s => (s.Namespace, s.Name)) := by
  simp only [releasedAt, List.map_map]
  apply List.map_congr_left
  intro s _
  simp only [Function.comp, Secret.released]
  split_ifs <;> rfl

theorem exists_released_iff (keys : List (String × String)) (l : List Secret)
    (p : String → String → List (String × String) → Prop) :
    (∃ s ∈ releasedAt keys l, p s.Namespace s.Name s.Labels) ↔
      ∃ s ∈ l, p s.Namespace s.Name s.Labels := by
  simp only [releasedAt, List.mem_map]
  constructor
  · rintro ⟨s, ⟨t, ht, rfl⟩, hp⟩
    refine ⟨t, ht, ?_⟩
    unfold Secret.released at hp
    split_ifs at hp <;> exact hp
  · rintro ⟨t, ht, hp⟩
    refine ⟨_, ⟨t, ht, rfl⟩, ?_⟩
    unfold Secret.released
    split_ifs <;> exact hp

theorem referencesUserManaged_released (shoot : Shoot) (keys : List (String × String))
    (l : List Secret) :
    referencesUserManaged shoot (releasedAt keys l) ↔ referencesUserManaged shoot l := by
  unfold referencesUserManaged
  constructor
  · rintro ⟨name, hname, hx⟩
    exact ⟨name, hname, (exists_released_iff keys l
      (fun a b c => a = shoot.Namespace ∧ b = name ∧ UserManagedSelector c = true)).mp hx⟩
  · rintro ⟨name, hname, hx⟩
    exact ⟨name, hname, (exists_released_iff keys l
      (fun a b c => a = shoot.Namespace ∧ b = name ∧ UserManagedSelector c = true)).mpr hx⟩

theorem referencesUserManaged_granted (shoot : Shoot) (ns : String) (names : List String)
    (l : List Secret) :
    referencesUserManaged shoot (grantedAt ns names l) ↔ referencesUserManaged shoot l := by
  unfold referencesUserManaged
  constructor
  · rintro ⟨name, hname, hx⟩
    exact ⟨name, hname, (exists_granted_iff ns names l
      (fun a b c => a = shoot.Namespace ∧ b = name ∧ UserManagedSelector c = true)).mp hx⟩
  · rintro ⟨name, hname, hx⟩
    exact ⟨name, hname, (exists_granted_iff ns names l
      (fun a b c => a = shoot.Namespace ∧ b = name ∧ UserManagedSelector c = true)).mpr hx⟩

/-- A grant phase that ends without error. -/
theorem handle_success (r : shootReferenceReconciler) (c : Client) (shoot : Shoot)
    (hnd : (c.store.secrets.map (fun s => (s.Namespace, s.Name))).Nodup)
    (h : (r.handleReferencedSecrets c shoot).2.2 = none) :
    (r.handleReferencedSecrets c shoot).1.store.secrets =
        grantedAt shoot.Namespace (secretNamesForDNSProviders shoot) c.store.secrets ∧
      (r.handleReferencedSecrets c shoot).1.store.shoots = c.store.shoots ∧
      (∀ name ∈ secretNamesForDNSProviders shoot, ∃ s ∈ c.store.secrets,
        s.Namespace = shoot.Namespace ∧ s.Name = name) ∧
      ((r.handleReferencedSecrets c shoot).2.1 = true ↔ referencesUserManaged shoot c.store.secrets) := by
  simp only [shootReferenceReconciler.handleReferencedSecrets] at h ⊢
  rw [Parallel_none] at h
  obtain ⟨h1, h2, h3⟩ := runTasks_handle_spec shoot (secretNamesForDNSProviders shoot) (c, 0) hnd h
  refine ⟨h1, runTasks_handle_shoots shoot _ (c, 0), h2, ?_⟩
  rw [Parallel_fst, bne_iff_ne, h3]
  simp [referencesUserManaged]

theorem handle_ok (r : shootReferenceReconciler) (c : Client) (shoot : Shoot)
    (hf : c.faults = [])
    (hex : ∀ name ∈ secretNamesForDNSProviders shoot, ∃ s ∈ c.store.secrets,
      s.Namespace = shoot.Namespace ∧ s.Name = name) :
    (r.handleReferencedSecrets c shoot).2.2 = none ∧
      (r.handleReferencedSecrets c shoot).1.faults = [] := by
  simp only [shootReferenceReconciler.handleReferencedSecrets]
  exact ⟨(Parallel_none _ _).mpr (runTasks_handle_ok shoot _ (c, 0) hf hex),
    runTasks_handle_faults shoot _ (c, 0) hf⟩

theorem handle_shoots (r : shootReferenceReconciler) (c : Client) (shoot : Shoot) :
    (r.handleReferencedSecrets c shoot).1.store.shoots = c.store.shoots :=
  runTasks_handle_shoots shoot _ (c, 0)

theorem shoot_named_iff (ns name : String) (s : Shoot) :
    s.named ns name = true ↔ s.Namespace = ns ∧ s.Name = name := by
  simp [Shoot.named]

theorem map_patched_shoot_of_fixed (l : List Shoot) (shoot : Shoot)
    (f : List String → List String)
    (hnd : (l.map (fun s => (s.Namespace, s.Name))).Nodup) (hs : shoot ∈ l)
    (hfix : f shoot.Finalizers = shoot.Finalizers) :
    l.map (Shoot.patched shoot.Namespace shoot.Name f) = l := by
  conv_rhs => rw [← List.map_id l]
  apply List.map_congr_left
  intro t ht
  simp only [Shoot.patched, id]
  by_cases hk : t.named shoot.Namespace shoot.Name = true
  · have hkk := (shoot_named_iff _ _ _).mp hk
    have : t = shoot := by
      have hinj := List.inj_on_of_nodup_map hnd ht hs
      exact hinj (by simp [hkk.1, hkk.2])
    subst this
    rw [if_pos hk, hfix]
  · rw [if_neg hk]

theorem finallyRemoved_iff (shoot : Shoot) :
    (shoot.DeletionTimestamp.isSome && !HasFinalizer shoot.Finalizers GardenerName) = true ↔
      beingFinallyRemoved shoot := by
  simp [beingFinallyRemoved, HasFinalizer, Option.isSome_iff_ne_none]

theorem reconcile_release_error (r : shootReferenceReconciler) (c : Client) (shoot : Shoot)
    (e : Err) (h : (r.releaseUnreferencedSecrets c shoot).2 = some e) :
    r.reconcileShootReferences c shoot = ((r.releaseUnreferencedSecrets c shoot).1, some e) := by
  unfold shootReferenceReconciler.reconcileShootReferences
  cases hrel : r.releaseUnreferencedSecrets c shoot with
  | mk c1 e1 =>
    rw [hrel] at h
    simp only at h
    subst h
    rfl

theorem reconcile_removed (r : shootReferenceReconciler) (c : Client) (shoot : Shoot)
    (h : (r.releaseUnreferencedSecrets c shoot).2 = none) (hrm : beingFinallyRemoved shoot) :
    r.reconcileShootReferences c shoot =
      ((PatchRemoveFinalizersShoot (r.releaseUnreferencedSecrets c shoot).1 shoot FinalizerName).1,
        (PatchRemoveFinalizersShoot (r.releaseUnreferencedSecrets c shoot).1 shoot
          FinalizerName).2.map Err.store) := by
  unfold shootReferenceReconciler.reconcileShootReferences
  cases hrel : r.releaseUnreferencedSecrets c shoot with
  | mk c1 e1 =>
    rw [hrel] at h
    simp only at h
    subst h
    simp only [(finallyRemoved_iff shoot).mpr hrm, if_true]

theorem reconcile_handle_error (r : shootReferenceReconciler) (c : Client) (shoot : Shoot)
    (h : (r.releaseUnreferencedSecrets c shoot).2 = none) (hrm : ¬ beingFinallyRemoved shoot)
    (e : Err)
    (hh : (r.handleReferencedSecrets (r.releaseUnreferencedSecrets c shoot).1 shoot).2.2 = some e) :
    r.reconcileShootReferences c shoot =
      ((r.handleReferencedSecrets (r.releaseUnreferencedSecrets c shoot).1 shoot).1, some e) := by
  unfold shootReferenceReconciler.reconcileShootReferences
  cases hrel : r.releaseUnreferencedSecrets c shoot with
  | mk c1 e1 =>
    rw [hrel] at h hh
    simp only at h hh
    subst h
    have hb : (shoot.DeletionTimestamp.isSome && !HasFinalizer shoot.Finalizers GardenerName) = false := by
      rw [← Bool.not_eq_true, finallyRemoved_iff]; exact hrm
    simp only [hb, Bool.false_eq_true, if_false]
    cases hhd : r.handleReferencedSecrets c1 shoot with
    | mk c2 rest =>
      obtain ⟨needs, e2⟩ := rest
      rw [hhd] at hh
      simp only at hh
      subst hh
      rfl

theorem reconcile_live (r : shootReferenceReconciler) (c : Client) (shoot : Shoot)
    (h : (r.releaseUnreferencedSecrets c shoot).2 = none) (hrm : ¬ beingFinallyRemoved shoot)
    (hh : (r.handleReferencedSecrets (r.releaseUnreferencedSecrets c shoot).1 shoot).2.2 = none) :
    r.reconcileShootReferences c shoot =
      if (r.handleReferencedSecrets (r.releaseUnreferencedSecrets c shoot).1 shoot).2.1 = true then
        if FinalizerName ∈ shoot.Finalizers then
          ((r.handleReferencedSecrets (r.releaseUnreferencedSecrets c shoot).1 shoot).1, none)
        else
          ((PatchFinalizersShoot
              (r.handleReferencedSecrets (r.releaseUnreferencedSecrets c shoot).1 shoot).1 shoot
              FinalizerName).1,
            (PatchFinalizersShoot
              (r.handleReferencedSecrets (r.releaseUnreferencedSecrets c shoot).1 shoot).1 shoot
              FinalizerName).2.map Err.store)
      else
        if FinalizerName ∈ shoot.Finalizers then
          ((PatchRemoveFinalizersShoot
              (r.handleReferencedSecrets (r.releaseUnreferencedSecrets c shoot).1 shoot).1 shoot
              FinalizerName).1,
            (PatchRemoveFinalizersShoot
              (r.handleReferencedSecrets (r.releaseUnreferencedSecrets c shoot).1 shoot).1 shoot
              FinalizerName).2.map Err.store)
        else
          ((r.handleReferencedSecrets (r.releaseUnreferencedSecrets c shoot).1 shoot).1, none) := by
  unfold shootReferenceReconciler.reconcileShootReferences
  cases hrel : r.releaseUnreferencedSecrets c shoot with
  | mk c1 e1 =>
    rw [hrel] at h hh
    simp only at h hh
    subst h
    have hb : (shoot.DeletionTimestamp.isSome && !HasFinalizer shoot.Finalizers GardenerName) = false := by
      rw [← Bool.not_eq_true, finallyRemoved_iff]; exact hrm
    simp only [hb, Bool.false_eq_true, if_false]
    cases hhd : r.handleReferencedSecrets c1 shoot with
    | mk c2 rest =>
      obtain ⟨needs, e2⟩ := rest
      rw [hhd] at hh
      simp only at hh
      subst hh
      simp only [HasFinalizer]
      cases needs <;> by_cases hfin : FinalizerName ∈ shoot.Finalizers <;> simp [hfin]

theorem option_map_store_eq_none (e : Option StoreError) : e.map Err.store = none ↔ e = none := by
  cases e <;> simp

/-- The closed form of a pass that ends without error. -/
theorem reconcile_success (r : shootReferenceReconciler) (c : Client) (shoot : Shoot)
    (hnd : (c.store.secrets.map (fun s => (s.Namespace, s.Name))).Nodup)
    (hndS : (c.store.shoots.map (fun s => (s.Namespace, s.Name))).Nodup)
    (hP : shoot ∈ c.store.shoots)
    (h : (r.reconcileShootReferences c shoot).2 = none) :
    ∃ secrets, r.secretLister c.store shoot.Namespace UserManagedSelector = .ok secrets ∧
      (beingFinallyRemoved shoot →
        (r.reconcileShootReferences c shoot).1.store.secrets =
          releasedAt ((secretsToRelease shoot
            (c.store.shoots.filter (fun s => s.Namespace = shoot.Namespace)) secrets).map
              (fun s => (s.Namespace, s.Name))) c.store.secrets ∧
        (r.reconcileShootReferences c shoot).1.store.shoots =
          c.store.shoots.map
            (Shoot.patched shoot.Namespace shoot.Name (removeFinalizer FinalizerName))) ∧
      (¬ beingFinallyRemoved shoot →
        (r.reconcileShootReferences c shoot).1.store.secrets =
          grantedAt shoot.Namespace (secretNamesForDNSProviders shoot)
            (releasedAt ((secretsToRelease shoot
              (c.store.shoots.filter (fun s => s.Namespace = shoot.Namespace)) secrets).map
                (fun s => (s.Namespace, s.Name))) c.store.secrets) ∧
        (∀ name ∈ secretNamesForDNSProviders shoot, ∃ s ∈ c.store.secrets,
          s.Namespace = shoot.Namespace ∧ s.Name = name) ∧
        (r.reconcileShootReferences c shoot).1.store.shoots =
          c.store.shoots.map (Shoot.patched shoot.Namespace shoot.Name
            (if referencesUserManaged shoot c.store.secrets then addFinalizer FinalizerName
             else removeFinalizer FinalizerName))) := by
  cases hrel : (r.releaseUnreferencedSecrets c shoot).2 with
  | some e => rw [reconcile_release_error r c shoot e hrel] at h; simp at h
  | none =>
    obtain ⟨secrets, hl, hsh, hsec⟩ := release_success r c shoot hrel
    refine ⟨secrets, hl, ?_, ?_⟩
    · intro hrm
      rw [reconcile_removed r c shoot hrel hrm] at h ⊢
      simp only [option_map_store_eq_none, PatchRemoveFinalizersShoot] at h ⊢
      rw [patchShoot_secrets, patchShoot_shoots _ _ _ _ h, hsh, hsec]
      exact ⟨rfl, rfl⟩
    · intro hrm
      cases hh : (r.handleReferencedSecrets (r.releaseUnreferencedSecrets c shoot).1 shoot).2.2 with
      | some e => rw [reconcile_handle_error r c shoot hrel hrm e hh] at h; simp at h
      | none =>
        have hnd1 : ((r.releaseUnreferencedSecrets c shoot).1.store.secrets.map
            (fun s => (s.Namespace, s.Name))).Nodup := by
          rw [hsec, releasedAt_keys]; exact hnd
        obtain ⟨g1, g2, g3, g4⟩ := handle_success r _ shoot hnd1 hh
        rw [hsec] at g1 g3 g4
        rw [referencesUserManaged_released] at g4
        rw [hsh] at g2
        have g3' : ∀ name ∈ secretNamesForDNSProviders shoot, ∃ s ∈ c.store.secrets,
            s.Namespace = shoot.Namespace ∧ s.Name = name := by
          intro name hname
          exact (exists_released_iff _ c.store.secrets
            (fun a b _ => a = shoot.Namespace ∧ b = name)).mp (g3 name hname)
        rw [reconcile_live r c shoot hrel hrm hh] at h ⊢
        by_cases hneeds : referencesUserManaged shoot c.store.secrets
        · rw [if_pos (g4.mpr hneeds)] at h ⊢
          rw [if_pos hneeds]
          by_cases hfin : FinalizerName ∈ shoot.Finalizers
          · rw [if_pos hfin]
            refine ⟨g1, g3', ?_⟩
            rw [map_patched_shoot_of_fixed _ shoot _ hndS hP (addFinalizer_of_mem _ _ hfin)]
            exact g2
          · rw [if_neg hfin] at h ⊢
            simp only [option_map_store_eq_none, PatchFinalizersShoot] at h ⊢
            rw [patchShoot_secrets, patchShoot_shoots _ _ _ _ h, g2]
            exact ⟨g1, g3', rfl⟩
        · have hn : ¬ (r.handleReferencedSecrets (r.releaseUnreferencedSecrets c shoot).1
              shoot).2.1 = true := fun hx => hneeds (g4.mp hx)
          rw [if_neg hn] at h ⊢
          rw [if_neg hneeds]
          by_cases hfin : FinalizerName ∈ shoot.Finalizers
          · rw [if_pos hfin] at h ⊢
            simp only [option_map_store_eq_none, PatchRemoveFinalizersShoot] at h ⊢
            rw [patchShoot_secrets, patchShoot_shoots _ _ _ _ h, g2]
            exact ⟨g1, g3', rfl⟩
          · rw [if_neg hfin]
            refine ⟨g1, g3', ?_⟩
            rw [map_patched_shoot_of_fixed _ shoot _ hndS hP (removeFinalizer_of_not_mem _ _ hfin)]
            exact g2

/-- Without failing requests, a pass ends without error as soon as the lister succeeds, the
shoot is in the store and, unless it is being finally removed, its referenced secrets exist. -/
theorem reconcile_ok (r : shootReferenceReconciler) (c : Client) (shoot : Shoot)
    (secrets : List Secret) (hf : c.faults = [])
    (hl : r.secretLister c.store shoot.Namespace UserManagedSelector = .ok secrets)
    (hP : shoot ∈ c.store.shoots)
    (hex : ¬ beingFinallyRemoved shoot →
      ∀ name ∈ secretNamesForDNSProviders shoot, ∃ s ∈ c.store.secrets,
        s.Namespace = shoot.Namespace ∧ s.Name = name) :
    (r.reconcileShootReferences c shoot).2 = none ∧
      (r.reconcileShootReferences c shoot).1.faults = [] := by
  obtain ⟨hrel, hrf⟩ := release_ok r c shoot secrets hf hl
  obtain ⟨_, _, hsh, hsec⟩ := release_success r c shoot hrel
  have hP1 : shoot ∈ (r.releaseUnreferencedSecrets c shoot).1.store.shoots := by rw [hsh]; exact hP
  have hk : shoot.named shoot.Namespace shoot.Name = true := (shoot_named_iff _ _ _).mpr ⟨rfl, rfl⟩
  by_cases hrm : beingFinallyRemoved shoot
  · rw [reconcile_removed r c shoot hrel hrm]
    simp only [PatchRemoveFinalizersShoot, option_map_store_eq_none, patchShoot_faults, hrf]
    exact ⟨patchShoot_found _ _ _ _ (fails_of_faults_nil _ hrf) shoot hP1 hk, rfl⟩
  · have hex1 : ∀ name ∈ secretNamesForDNSProviders shoot,
        ∃ s ∈ (r.releaseUnreferencedSecrets c shoot).1.store.secrets,
          s.Namespace = shoot.Namespace ∧ s.Name = name := by
      intro name hname
      rw [hsec]
      exact (exists_released_iff _ c.store.secrets
        (fun a b _ => a = shoot.Namespace ∧ b = name)).mpr (hex hrm name hname)
    obtain ⟨hh, hhf⟩ := handle_ok r _ shoot hrf hex1
    have hP2 : shoot ∈ (r.handleReferencedSecrets (r.releaseUnreferencedSecrets c shoot).1
        shoot).1.store.shoots := by rw [handle_shoots]; exact hP1
    rw [reconcile_live r c shoot hrel hrm hh]
    split_ifs
    · exact ⟨rfl, hhf⟩
    · simp only [PatchFinalizersShoot, option_map_store_eq_none, patchShoot_faults, hhf]
      exact ⟨patchShoot_found _ _ _ _ (fails_of_faults_nil _ hhf) shoot hP2 hk, rfl⟩
    · simp only [PatchRemoveFinalizersShoot, option_map_store_eq_none, patchShoot_faults, hhf]
      exact ⟨patchShoot_found _ _ _ _ (fails_of_faults_nil _ hhf) shoot hP2 hk, rfl⟩
    · exact ⟨rfl, hhf⟩

/-! ## What a pass cannot touch -/

theorem sameManaged_refl (a : Secret) : sameManaged a a := ⟨rfl, rfl, rfl, fun _ => rfl⟩

theorem sameManaged_trans {a b c : Secret} (h1 : sameManaged a b) (h2 : sameManaged b c) :
    sameManaged a c := by
  obtain ⟨n1, m1, l1, e1⟩ := h1
  obtain ⟨n2, m2, l2, e2⟩ := h2
  refine ⟨n1.trans n2, m1.trans m2, l1.trans l2, fun hu => ?_⟩
  have hab := e1 hu
  subst hab
  exact e2 hu

theorem forall₂_sameManaged_refl (l : List Secret) : List.Forall₂ sameManaged l l :=
  List.forall₂_same.mpr (fun a _ => sameManaged_refl a)

theorem forall₂_sameManaged_trans {a b c : List Secret} (h1 : List.Forall₂ sameManaged a b)
    (h2 : List.Forall₂ sameManaged b c) : List.Forall₂ sameManaged a c := by
  induction h1 generalizing c with
  | nil => cases h2; exact List.Forall₂.nil
  | cons hab _ ih =>
    cases h2 with
    | cons hbc htl => exact List.Forall₂.cons (sameManaged_trans hab hbc) (ih htl)

theorem forall₂_sameManaged_keys {a b : List Secret} (h : List.Forall₂ sameManaged a b) :
    b.map (fun s => (s.Namespace, s.Name)) = a.map (fun s => (s.Namespace, s.Name)) := by
  induction h with
  | nil => rfl
  | cons hab _ ih => simp [ih, hab.1, hab.2.1]

/-- No secret with the identity `ns/name` carries the system-ownership label. -/
theorem forall₂_sameManaged_userManaged {a b : List Secret} (h : List.Forall₂ sameManaged a b)
    (ns name : String)
    (ha : ∀ t ∈ a, t.Namespace = ns → t.Name = name → UserManagedSelector t.Labels = true) :
    ∀ t ∈ b, t.Namespace = ns → t.Name = name → UserManagedSelector t.Labels = true := by
  induction h with
  | nil => simp
  | cons hab _ ih =>
    intro t ht
    rcases List.mem_cons.mp ht with rfl | hmem
    · intro h1 h2
      rw [← hab.2.2.1]
      exact ha _ (List.mem_cons_self _ _) (hab.1.trans h1) (hab.2.1.trans h2)
    · exact ih (fun t ht => ha t (List.mem_cons_of_mem _ ht)) t hmem

theorem forall₂_sameManaged_find {a b : List Secret} (h : List.Forall₂ sameManaged a b)
    (ns name : String) (s : Secret) (hfind : a.find? (Secret.named ns name) = some s)
    (hl : UserManagedSelector s.Labels = false) :
    b.find? (Secret.named ns name) = some s := by
  induction h with
  | nil => simp at hfind
  | @cons x y xs ys hxy _ ih =>
    have hn : y.named ns name = x.named ns name := by
      simp [Secret.named, hxy.1, hxy.2.1]
    rw [List.find?_cons] at hfind ⊢
    rw [hn]
    cases hx : x.named ns name with
    | true =>
      rw [hx] at hfind
      simp only [Option.some.injEq] at hfind
      subst hfind
      rw [← hxy.2.2.2 hl]
    | false =>
      rw [hx] at hfind
      exact ih hfind

theorem patchSecret_sameManaged (c : Client) (ns name : String) (f : List String → List String)
    (hu : ∀ t ∈ c.store.secrets, t.Namespace = ns → t.Name = name →
      UserManagedSelector t.Labels = true) :
    List.Forall₂ sameManaged c.store.secrets (c.patchSecret ns name f).1.store.secrets := by
  rcases patchSecret_secrets_cases c ns name f with h | h
  · rw [h]; exact forall₂_sameManaged_refl _
  · rw [h, List.forall₂_map_right_iff, List.forall₂_same]
    intro t ht
    unfold Secret.patched
    split_ifs with hk
    · have hkk := (named_iff _ _ _).mp hk
      refine ⟨rfl, rfl, rfl, fun hl => ?_⟩
      rw [hu t ht hkk.1 hkk.2] at hl
      exact absurd hl (by decide)
    · exact sameManaged_refl t

theorem runTasks_release_sameManaged (l : List Secret) (c : Client)
    (hu : ∀ s ∈ l, ∀ t ∈ c.store.secrets, t.Namespace = s.Namespace → t.Name = s.Name →
      UserManagedSelector t.Labels = true) :
    List.Forall₂ sameManaged c.store.secrets
      (runTasks (l.map releaseUnreferencedSecretTask) c).1.store.secrets := by
  induction l generalizing c with
  | nil => exact forall₂_sameManaged_refl _
  | cons s l ih =>
    simp only [List.map_cons, runTasks]
    have h1 : List.Forall₂ sameManaged c.store.secrets
        (releaseUnreferencedSecretTask s c).1.store.secrets :=
      patchSecret_sameManaged c s.Namespace s.Name _ (hu s (List.mem_cons_self _ _))
    refine forall₂_sameManaged_trans h1 (ih _ ?_)
    intro s' hs'
    exact forall₂_sameManaged_userManaged h1 s'.Namespace s'.Name
      (hu s' (List.mem_cons_of_mem _ hs'))

theorem handleTask_sameManaged (shoot : Shoot) (name : String) (st : Client × Nat)
    (hnd : (st.1.store.secrets.map (fun s => (s.Namespace, s.Name))).Nodup) :
    List.Forall₂ sameManaged st.1.store.secrets
      (handleReferencedSecretTask shoot name st).1.1.store.secrets := by
  cases hf : st.1.fails
  · cases hfind : st.1.store.secrets.find? (Secret.named shoot.Namespace name) with
    | none => rw [handleTask_notFound shoot name st hf hfind]; exact forall₂_sameManaged_refl _
    | some s =>
      cases hl : UserManagedSelector s.Labels
      · rw [handleTask_managed shoot name st s hf hfind hl]; exact forall₂_sameManaged_refl _
      · by_cases hfin : FinalizerName ∈ s.Finalizers
        · rw [handleTask_protected shoot name st s hf hfind hl hfin]
          exact forall₂_sameManaged_refl _
        · rw [handleTask_grant shoot name st s hf hfind hl hfin]
          apply patchSecret_sameManaged st.1.next
          intro t ht h1 h2
          have := eq_of_find_named _ _ _ s t hnd hfind ht ⟨h1, h2⟩
          rw [this]; exact hl
  · rw [handleTask_unavailable shoot name st hf]; exact forall₂_sameManaged_refl _

theorem runTasks_handle_sameManaged (shoot : Shoot) (names : List String) (st : Client × Nat)
    (hnd : (st.1.store.secrets.map (fun s => (s.Namespace, s.Name))).Nodup) :
    List.Forall₂ sameManaged st.1.store.secrets
      (runTasks (names.map (handleReferencedSecretTask shoot)) st).1.1.store.secrets := by
  induction names generalizing st with
  | nil => exact forall₂_sameManaged_refl _
  | cons n names ih =>
    simp only [List.map_cons, runTasks]
    have h1 := handleTask_sameManaged shoot n st hnd
    refine forall₂_sameManaged_trans h1 (ih _ ?_)
    rw [forall₂_sameManaged_keys h1]; exact hnd

theorem release_sameManaged (r : shootReferenceReconciler) (c : Client) (shoot : Shoot)
    (hlister : ∀ l, r.secretLister c.store shoot.Namespace UserManagedSelector = .ok l →
      ∀ s ∈ l, ∀ t ∈ c.store.secrets, t.Namespace = s.Namespace → t.Name = s.Name →
        UserManagedSelector t.Labels = true) :
    List.Forall₂ sameManaged c.store.secrets
      (r.releaseUnreferencedSecrets c shoot).1.store.secrets := by
  cases hl : r.secretLister c.store shoot.Namespace UserManagedSelector with
  | error e =>
    simp only [shootReferenceReconciler.releaseUnreferencedSecrets,
      shootReferenceReconciler.getUnreferencedSecrets, hl]
    exact forall₂_sameManaged_refl _
  | ok secrets =>
    cases hf : c.fails
    · simp only [shootReferenceReconciler.releaseUnreferencedSecrets,
        getUnreferencedSecrets_eq r c shoot secrets hf hl, Parallel_fst]
      apply runTasks_release_sameManaged _ c.next
      intro s hs
      exact hlister secrets hl s ((mem_secretsToRelease _ _ _ _).mp hs).1
    · simp only [shootReferenceReconciler.releaseUnreferencedSecrets,
        shootReferenceReconciler.getUnreferencedSecrets, hl, Client.ListShoots, hf, if_true]
      exact forall₂_sameManaged_refl _

theorem handle_sameManaged (r : shootReferenceReconciler) (c : Client) (shoot : Shoot)
    (hnd : (c.store.secrets.map (fun s => (s.Namespace, s.Name))).Nodup) :
    List.Forall₂ sameManaged c.store.secrets (r.handleReferencedSecrets c shoot).1.store.secrets :=
  runTasks_handle_sameManaged shoot _ (c, 0) hnd

theorem reconcile_sameManaged (r : shootReferenceReconciler) (c : Client) (shoot : Shoot)
    (hnd : (c.store.secrets.map (fun s => (s.Namespace, s.Name))).Nodup)
    (hlister : ∀ l, r.secretLister c.store shoot.Namespace UserManagedSelector = .ok l →
      ∀ s ∈ l, ∀ t ∈ c.store.secrets, t.Namespace = s.Namespace → t.Name = s.Name →
        UserManagedSelector t.Labels = true) :
    List.Forall₂ sameManaged c.store.secrets
      (r.reconcileShootReferences c shoot).1.store.secrets := by
  have h1 := release_sameManaged r c shoot hlister
  cases hrel : (r.releaseUnreferencedSecrets c shoot).2 with
  | some e => rw [reconcile_release_error r c shoot e hrel]; exact h1
  | none =>
    by_cases hrm : beingFinallyRemoved shoot
    · rw [reconcile_removed r c shoot hrel hrm]
      simp only [PatchRemoveFinalizersShoot, patchShoot_secrets]
      exact h1
    · have hnd1 : ((r.releaseUnreferencedSecrets c shoot).1.store.secrets.map
          (fun s => (s.Namespace, s.Name))).Nodup := by
        rw [forall₂_sameManaged_keys h1]; exact hnd
      have h2 := forall₂_sameManaged_trans h1 (handle_sameManaged r _ shoot hnd1)
      cases hh : (r.handleReferencedSecrets (r.releaseUnreferencedSecrets c shoot).1 shoot).2.2 with
      | some e => rw [reconcile_handle_error r c shoot hrel hrm e hh]; exact h2
      | none =>
        rw [reconcile_live r c shoot hrel hrm hh]
        split_ifs
        · exact h2
        · simp only [PatchFinalizersShoot, patchShoot_secrets]; exact h2
        · simp only [PatchRemoveFinalizersShoot, patchShoot_secrets]; exact h2
        · exact h2

/-! ## The entry point -/

theorem Reconcile_noClient (r : shootReferenceReconciler) (c : Client) (request : Request)
    (hf : c.fails = true) : r.Reconcile c request = (c.next, some .noClient) := by
  simp [shootReferenceReconciler.Reconcile, hf]

theorem Reconcile_unavailable (r : shootReferenceReconciler) (c : Client) (request : Request)
    (hf : c.fails = false) (hf1 : c.next.fails = true) :
    r.Reconcile c request = (c.next.next, some (.store .unavailable)) := by
  simp [shootReferenceReconciler.Reconcile, Client.GetShoot, hf, hf1]

theorem Reconcile_gone (r : shootReferenceReconciler) (c : Client) (request : Request)
    (hf : c.fails = false) (hf1 : c.next.fails = false)
    (hfind : c.store.shoots.find? (Shoot.named request.Namespace request.Name) = none) :
    r.Reconcile c request = (c.next.next, none) := by
  have : c.next.store = c.store := rfl
  simp [shootReferenceReconciler.Reconcile, Client.GetShoot, hf, hf1, this, hfind]

theorem Reconcile_found (r : shootReferenceReconciler) (c : Client) (request : Request)
    (shoot : Shoot) (hf : c.fails = false) (hf1 : c.next.fails = false)
    (hfind : c.store.shoots.find? (Shoot.named request.Namespace request.Name) = some shoot) :
    r.Reconcile c request = r.reconcileShootReferences c.next.next shoot := by
  have : c.next.store = c.store := rfl
  simp [shootReferenceReconciler.Reconcile, Client.GetShoot, hf, hf1, this, hfind]

theorem Reconcile_success (r : shootReferenceReconciler) (c : Client) (request : Request)
    (h : (r.Reconcile c request).2 = none) : c.fails = false ∧ c.next.fails = false := by
  cases hf : c.fails
  · cases hf1 : c.next.fails
    · exact ⟨rfl, rfl⟩
    · rw [Reconcile_unavailable r c request hf hf1] at h; simp at h
  · rw [Reconcile_noClient r c request hf] at h; simp at h

theorem next_next_faults_nil (c : Client) (h : c.faults = []) : c.next.next.faults = [] := by
  simp [Client.next, h]

/-! ## Looking an object up after a pass -/

theorem find_map_preserved {α : Type} (l : List α) (g : α → α) (p : α → Bool)
    (hp : ∀ x, p (g x) = p x) : (l.map g).find? p = (l.find? p).map g := by
  rw [List.find?_map]
  have : p ∘ g = p := funext hp
  rw [this]

theorem shoot_patched_named (ns name : String) (f : List String → List String) (a b : String)
    (s : Shoot) : (Shoot.patched ns name f s).named a b = s.named a b := by
  unfold Shoot.patched
  split_ifs <;> rfl

theorem shootFinalizers_patched (shoots : List Shoot) (secrets : List Secret) (a b : String)
    (f : List String → List String) (shoot : Shoot)
    (hP : shoots.find? (Shoot.named a b) = some shoot) :
    Store.shootFinalizers ⟨shoots.map (Shoot.patched shoot.Namespace shoot.Name f), secrets⟩ a b =
      some (f shoot.Finalizers) := by
  have hk := (shoot_named_iff _ _ _).mp (List.find?_some hP)
  have hn : shoot.named shoot.Namespace shoot.Name = true := (shoot_named_iff _ _ _).mpr ⟨rfl, rfl⟩
  unfold Store.shootFinalizers
  simp only
  rw [find_map_preserved _ _ _ (shoot_patched_named _ _ f a b), hP]
  simp only [Option.map_some', Shoot.patched, hn, if_true]

theorem released_Namespace (keys : List (String × String)) (s : Secret) :
    (s.released keys).Namespace = s.Namespace := by
  unfold Secret.released; split_ifs <;> rfl

theorem released_Name (keys : List (String × String)) (s : Secret) :
    (s.released keys).Name = s.Name := by
  unfold Secret.released; split_ifs <;> rfl

theorem released_Labels (keys : List (String × String)) (s : Secret) :
    (s.released keys).Labels = s.Labels := by
  unfold Secret.released; split_ifs <;> rfl

theorem released_Finalizers (keys : List (String × String)) (s : Secret) :
    (s.released keys).Finalizers =
      if (s.Namespace, s.Name) ∈ keys then removeFinalizer FinalizerName s.Finalizers
      else s.Finalizers := by
  unfold Secret.released; split_ifs <;> rfl

theorem granted_Namespace (ns : String) (names : List String) (s : Secret) :
    (s.granted ns names).Namespace = s.Namespace := by
  unfold Secret.granted; split_ifs <;> rfl

theorem granted_Name (ns : String) (names : List String) (s : Secret) :
    (s.granted ns names).Name = s.Name := by
  unfold Secret.granted; split_ifs <;> rfl

theorem granted_Labels (ns : String) (names : List String) (s : Secret) :
    (s.granted ns names).Labels = s.Labels := by
  unfold Secret.granted; split_ifs <;> rfl

theorem granted_Finalizers (ns : String) (names : List String) (s : Secret) :
    (s.granted ns names).Finalizers =
      if s.Namespace = ns ∧ s.Name ∈ names ∧ UserManagedSelector s.Labels = true then
        addFinalizer FinalizerName s.Finalizers
      else s.Finalizers := by
  unfold Secret.granted; split_ifs <;> rfl

theorem released_named (keys : List (String × String)) (a b : String) (s : Secret) :
    (s.released keys).named a b = s.named a b := by
  simp only [Secret.named, released_Namespace, released_Name]

theorem granted_named (ns : String) (names : List String) (a b : String) (s : Secret) :
    (s.granted ns names).named a b = s.named a b := by
  simp only [Secret.named, granted_Namespace, granted_Name]

theorem find_releasedAt (keys : List (String × String)) (l : List Secret) (a b : String)
    (s : Secret) (hs : l.find? (Secret.named a b) = some s) :
    (releasedAt keys l).find? (Secret.named a b) = some (s.released keys) := by
  unfold releasedAt
  rw [find_map_preserved _ _ _ (released_named keys a b), hs]
  rfl

theorem find_grantedAt (ns : String) (names : List String) (l : List Secret) (a b : String)
    (s : Secret) (hs : l.find? (Secret.named a b) = some s) :
    (grantedAt ns names l).find? (Secret.named a b) = some (s.granted ns names) := by
  unfold grantedAt
  rw [find_map_preserved _ _ _ (granted_named ns names a b), hs]
  rfl

theorem mem_release_keys (shoot : Shoot) (shoots : List Shoot) (l : List Secret)
    (hnd : (l.map (fun s => (s.Namespace, s.Name))).Nodup) (p : Secret → Bool) (s : Secret)
    (hs : s ∈ l) :
    (s.Namespace, s.Name) ∈ (secretsToRelease shoot shoots (l.filter p)).map
        (fun s => (s.Namespace, s.Name)) ↔
      p s = true ∧ FinalizerName ∈ s.Finalizers ∧ s.Name ∉ referencedSecretNames shoot shoots := by
  simp only [List.mem_map, mem_secretsToRelease, List.mem_filter]
  constructor
  · rintro ⟨t, ⟨⟨ht, hp⟩, hfin, href⟩, hk⟩
    have : t = s := List.inj_on_of_nodup_map hnd ht hs hk
    subst this
    exact ⟨hp, hfin, href⟩
  · rintro ⟨hp, hfin, href⟩
    exact ⟨s, ⟨⟨hs, hp⟩, hfin, href⟩, rfl⟩

/-- The closed form of a pass for a shoot of the store, entered through `Reconcile`. -/
theorem Reconcile_closed_form (r : shootReferenceReconciler) (c : Client) (request : Request)
    (shoot : Shoot) (hwf : c.store.WF)
    (hP : c.store.shoots.find? (Shoot.named request.Namespace request.Name) = some shoot)
    (h : (r.Reconcile c request).2 = none) :
    ∃ secrets, r.secretLister c.store shoot.Namespace UserManagedSelector = .ok secrets ∧
      (beingFinallyRemoved shoot →
        (r.Reconcile c request).1.store.secrets =
          releasedAt ((secretsToRelease shoot
            (c.store.shoots.filter (fun s => s.Namespace = shoot.Namespace)) secrets).map
              (fun s => (s.Namespace, s.Name))) c.store.secrets ∧
        (r.Reconcile c request).1.store.shoots =
          c.store.shoots.map
            (Shoot.patched shoot.Namespace shoot.Name (removeFinalizer FinalizerName))) ∧
      (¬ beingFinallyRemoved shoot →
        (r.Reconcile c request).1.store.secrets =
          grantedAt shoot.Namespace (secretNamesForDNSProviders shoot)
            (releasedAt ((secretsToRelease shoot
              (c.store.shoots.filter (fun s => s.Namespace = shoot.Namespace)) secrets).map
                (fun s => (s.Namespace, s.Name))) c.store.secrets) ∧
        (∀ name ∈ secretNamesForDNSProviders shoot, ∃ s ∈ c.store.secrets,
          s.Namespace = shoot.Namespace ∧ s.Name = name) ∧
        (r.Reconcile c request).1.store.shoots =
          c.store.shoots.map (Shoot.patched shoot.Namespace shoot.Name
            (if referencesUserManaged shoot c.store.secrets then addFinalizer FinalizerName
             else removeFinalizer FinalizerName))) := by
  obtain ⟨hf, hf1⟩ := Reconcile_success r c request h
  rw [Reconcile_found r c request shoot hf hf1 hP] at h ⊢
  exact reconcile_success r c.next.next shoot hwf.2 hwf.1 (List.mem_of_find?_eq_some hP) h

/-- Without failing requests, a pass entered through `Reconcile` for a shoot of the store ends
without error when the lister succeeds and, unless the shoot is being finally removed, its
referenced secrets exist. -/
theorem Reconcile_ok (r : shootReferenceReconciler) (c : Client) (request : Request)
    (shoot : Shoot) (secrets : List Secret) (hf : c.faults = [])
    (hP : c.store.shoots.find? (Shoot.named request.Namespace request.Name) = some shoot)
    (hl : r.secretLister c.store shoot.Namespace UserManagedSelector = .ok secrets)
    (hex : ¬ beingFinallyRemoved shoot →
      ∀ name ∈ secretNamesForDNSProviders shoot, ∃ s ∈ c.store.secrets,
        s.Namespace = shoot.Namespace ∧ s.Name = name) :
    (r.Reconcile c request).2 = none ∧ (r.Reconcile c request).1.faults = [] := by
  have hf0 := fails_of_faults_nil c hf
  have hf1 := fails_of_faults_nil c.next (next_faults_nil c hf)
  rw [Reconcile_found r c request shoot hf0 hf1 hP]
  exact reconcile_ok r c.next.next shoot secrets (next_next_faults_nil c hf) hl
    (List.mem_of_find?_eq_some hP) hex

/-! ## System-managed secrets -/

/-- The lister that reads a well-formed store returns no secret that the store holds with the
system-ownership label. -/
theorem storeSecretLister_userManaged (st : Store) (hwf : st.WF) (ns : String) (l : List Secret)
    (hl : storeSecretLister st ns UserManagedSelector = .ok l) :
    ∀ s ∈ l, ∀ t ∈ st.secrets, t.Namespace = s.Namespace → t.Name = s.Name →
      UserManagedSelector t.Labels = true := by
  simp only [storeSecretLister, Except.ok.injEq] at hl
  subst hl
  intro s hs t ht h1 h2
  simp only [List.mem_filter, decide_eq_true_eq] at hs
  have : t = s := List.inj_on_of_nodup_map hwf.2 ht hs.1 (by simp [h1, h2])
  rw [this]; exact hs.2.2

/-- C7: a secret that carries the system-ownership label (`GardenRole` is among its labels) is
after a reconcile pass, successful or not and under any pattern of failing requests, the very
same object as before, finalizers included, whatever the parent references.  The lister is
assumed to return no secret that the store holds with that label. -/
theorem Reconcile_managed_secret_untouched (r : shootReferenceReconciler) (c : Client)
    (request : Request) (hwf : c.store.WF)
    (hlister : ∀ ns l, r.secretLister c.store ns UserManagedSelector = .ok l →
      ∀ s ∈ l, ∀ t ∈ c.store.secrets, t.Namespace = s.Namespace → t.Name = s.Name →
        (t.Labels.lookup GardenRole).isSome = false)
    (ns name : String) (s : Secret)
    (hs : c.store.secrets.find? (Secret.named ns name) = some s)
    (hm : (s.Labels.lookup GardenRole).isSome = true) :
    (r.Reconcile c request).1.store.secrets.find? (Secret.named ns name) = some s := by
  have hum : UserManagedSelector s.Labels = false := by
    rw [← Bool.not_eq_true, userManaged_iff, hm]; decide
  cases hf : c.fails
  · cases hf1 : c.next.fails
    · cases hfind : c.store.shoots.find? (Shoot.named request.Namespace request.Name) with
      | none => rw [Reconcile_gone r c request hf hf1 hfind]; exact hs
      | some shoot =>
        rw [Reconcile_found r c request shoot hf hf1 hfind]
        refine forall₂_sameManaged_find
          (reconcile_sameManaged r c.next.next shoot hwf.2 ?_) ns name s hs hum
        intro l hl s' hs' t ht h1 h2
        rw [userManaged_iff]
        exact hlister shoot.Namespace l hl s' hs' t ht h1 h2
    · rw [Reconcile_unavailable r c request hf hf1]; exact hs
  · rw [Reconcile_noClient r c request hf]; exact hs

/-- C7 at `gardenStore`: the pass for `p` fails on its fourth request, and the system-managed,
protected and unreferenced secret `m` is as before. -/
theorem Reconcile_managed_secret_untouched_witness :
    (shootReferenceReconciler.Reconcile ⟨storeSecretLister⟩
        ⟨gardenStore, [false, false, false, true]⟩ ⟨"garden-dev", "p"⟩).2 ≠ none ∧
      (shootReferenceReconciler.Reconcile ⟨storeSecretLister⟩
        ⟨gardenStore, [false, false, false, true]⟩ ⟨"garden-dev", "p"⟩).1.store.secrets.find?
          (Secret.named "garden-dev" "m") =
        some { Namespace := "garden-dev", Name := "m", Labels := [(GardenRole, "internal-domain")],
               Finalizers := [FinalizerName] } :=
  ⟨by decide,
    Reconcile_managed_secret_untouched ⟨storeSecretLister⟩
      ⟨gardenStore, [false, false, false, true]⟩ ⟨"garden-dev", "p"⟩ (by decide)
      (fun ns l hl s hs t ht h1 h2 =>
        (userManaged_iff t.Labels).mp
          (storeSecretLister_userManaged gardenStore (by decide) ns l hl s hs t ht h1 h2))
      "garden-dev" "m" _ (by decide) (by decide)⟩

/-! ## Deletion -/

/-- C3: for a parent of the store that has a deletion timestamp and does not carry
`GardenerName`, a pass without failing requests and with a lister that answers ends without
error; and a pass that ends without error leaves the parent without `FinalizerName`, whether
or not it carried it, and adds `FinalizerName` to no secret: every secret that carries it
afterwards is a secret of the store before the pass, unchanged. -/
theorem Reconcile_deletion (r : shootReferenceReconciler) (c : Client) (request : Request)
    (shoot : Shoot) (hwf : c.store.WF)
    (hP : c.store.shoots.find? (Shoot.named request.Namespace request.Name) = some shoot)
    (hrm : beingFinallyRemoved shoot) :
    (c.faults = [] →
      (∃ secrets, r.secretLister c.store shoot.Namespace UserManagedSelector = .ok secrets) →
        (r.Reconcile c request).2 = none) ∧
    ((r.Reconcile c request).2 = none →
      (∃ fs, (r.Reconcile c request).1.store.shootFinalizers request.Namespace request.Name
          = some fs ∧ FinalizerName ∉ fs) ∧
      (∀ s ∈ (r.Reconcile c request).1.store.secrets,
        FinalizerName ∈ s.Finalizers → s ∈ c.store.secrets)) := by
  constructor
  · rintro hf ⟨secrets, hl⟩
    exact (Reconcile_ok r c request shoot secrets hf hP hl (fun h => absurd hrm h)).1
  · intro h
    obtain ⟨secrets, _, h1, _⟩ := Reconcile_closed_form r c request shoot hwf hP h
    obtain ⟨hsec, hsh⟩ := h1 hrm
    constructor
    · refine ⟨removeFinalizer FinalizerName shoot.Finalizers, ?_, not_mem_removeFinalizer _ _⟩
      have := shootFinalizers_patched c.store.shoots (r.Reconcile c request).1.store.secrets
        request.Namespace request.Name (removeFinalizer FinalizerName) shoot hP
      rw [← hsh] at this
      exact this
    · intro s hs hfin
      rw [hsec, releasedAt, List.mem_map] at hs
      obtain ⟨t, ht, rfl⟩ := hs
      unfold Secret.released at hfin ⊢
      split_ifs at hfin ⊢ with hk
      · exact absurd hfin (not_mem_removeFinalizer _ _)
      · exact ht

/-- C3 at `deletingStore`: the pass for `p` ends without error, and `p` is left without the
protective finalizer. -/
theorem Reconcile_deletion_witness :
    (∃ fs, (shootReferenceReconciler.Reconcile ⟨storeSecretLister⟩ ⟨deletingStore, []⟩
        ⟨"garden-dev", "p"⟩).1.store.shootFinalizers "garden-dev" "p" = some fs ∧
          FinalizerName ∉ fs) ∧
      (∀ s ∈ (shootReferenceReconciler.Reconcile ⟨storeSecretLister⟩ ⟨deletingStore, []⟩
        ⟨"garden-dev", "p"⟩).1.store.secrets,
        FinalizerName ∈ s.Finalizers → s ∈ deletingStore.secrets) :=
  (Reconcile_deletion ⟨storeSecretLister⟩ ⟨deletingStore, []⟩ ⟨"garden-dev", "p"⟩ shootDeleting
    (by decide) (by decide) (by decide)).2
    ((Reconcile_deletion ⟨storeSecretLister⟩ ⟨deletingStore, []⟩ ⟨"garden-dev", "p"⟩ shootDeleting
      (by decide) (by decide) (by decide)).1 rfl ⟨_, rfl⟩)

/-! ## Grants -/

/-- C4: for a parent of the store that is not being finally removed, a pass without failing
requests, with a lister that answers and with all referenced secrets in the store, ends
without error; and after a pass that ends without error every secret referenced by the DNS
providers of the parent exists and, if it lacks the label `GardenRole`, carries
`FinalizerName`, and if there is such a secret the parent carries `FinalizerName`. -/
theorem Reconcile_grant (r : shootReferenceReconciler) (c : Client) (request : Request)
    (shoot : Shoot) (hwf : c.store.WF)
    (hP : c.store.shoots.find? (Shoot.named request.Namespace request.Name) = some shoot)
    (hlive : ¬ beingFinallyRemoved shoot) :
    (c.faults = [] →
      (∃ secrets, r.secretLister c.store shoot.Namespace UserManagedSelector = .ok secrets) →
      (∀ name ∈ secretNamesForDNSProviders shoot, ∃ s ∈ c.store.secrets,
        s.Namespace = shoot.Namespace ∧ s.Name = name) →
        (r.Reconcile c request).2 = none) ∧
    ((r.Reconcile c request).2 = none →
      (∀ name ∈ secretNamesForDNSProviders shoot,
        ∃ s, (r.Reconcile c request).1.store.secrets.find? (Secret.named shoot.Namespace name)
            = some s ∧
          ((s.Labels.lookup GardenRole).isSome = false → FinalizerName ∈ s.Finalizers)) ∧
      ((∃ name ∈ secretNamesForDNSProviders shoot,
        ∃ s, (r.Reconcile c request).1.store.secrets.find? (Secret.named shoot.Namespace name)
            = some s ∧ (s.Labels.lookup GardenRole).isSome = false) →
        ∃ fs, (r.Reconcile c request).1.store.shootFinalizers request.Namespace request.Name
          = some fs ∧ FinalizerName ∈ fs)) := by
  constructor
  · rintro hf ⟨secrets, hl⟩ hex
    exact (Reconcile_ok r c request shoot secrets hf hP hl (fun _ => hex)).1
  · intro h
    obtain ⟨secrets, _, _, h2⟩ := Reconcile_closed_form r c request shoot hwf hP h
    obtain ⟨hsec, hex, hsh⟩ := h2 hlive
    have hlook : ∀ name ∈ secretNamesForDNSProviders shoot, ∃ s0 ∈ c.store.secrets,
        s0.Namespace = shoot.Namespace ∧ s0.Name = name ∧
        ∃ s, (r.Reconcile c request).1.store.secrets.find? (Secret.named shoot.Namespace name)
            = some s ∧ s.Labels = s0.Labels ∧
          (UserManagedSelector s0.Labels = true → FinalizerName ∈ s.Finalizers) := by
      intro name hname
      obtain ⟨s0, hs0, hk⟩ := hex name hname
      have hfind := find_named_of_nodup _ _ _ s0 hwf.2 hs0 hk
      refine ⟨s0, hs0, hk.1, hk.2, ?_⟩
      rw [hsec, find_grantedAt _ _ _ _ _ _ (find_releasedAt _ _ _ _ s0 hfind)]
      refine ⟨_, rfl, by rw [granted_Labels, released_Labels], ?_⟩
      intro hu
      rw [granted_Finalizers, released_Namespace, released_Name, released_Labels,
        if_pos ⟨hk.1, by rw [hk.2]; exact hname, hu⟩]
      exact mem_addFinalizer _ _
    constructor
    · intro name hname
      obtain ⟨s0, _, _, _, s, hs, hlab, hfin⟩ := hlook name hname
      refine ⟨s, hs, fun hl => hfin ?_⟩
      rw [userManaged_iff, ← hlab]; exact hl
    · rintro ⟨name, hname, s, hs, hl⟩
      obtain ⟨s0, hs0, hk1, hk2, s', hs', hlab, _⟩ := hlook name hname
      rw [hs] at hs'
      have hss : s = s' := Option.some.inj hs'
      subst hss
      have hneeds : referencesUserManaged shoot c.store.secrets :=
        ⟨name, hname, s0, hs0, hk1, hk2, by rw [userManaged_iff, ← hlab]; exact hl⟩
      rw [if_pos hneeds] at hsh
      refine ⟨addFinalizer FinalizerName shoot.Finalizers, ?_, mem_addFinalizer _ _⟩
      have := shootFinalizers_patched c.store.shoots (r.Reconcile c request).1.store.secrets
        request.Namespace request.Name (addFinalizer FinalizerName) shoot hP
      rw [← hsh] at this
      exact this

/-- C4 at `gardenStore`: after the pass for `p` the referenced secret `c` is protected, and so
is `p`. -/
theorem Reconcile_grant_witness :
    (∀ name ∈ secretNamesForDNSProviders shootP,
      ∃ s, (shootReferenceReconciler.Reconcile ⟨storeSecretLister⟩ ⟨gardenStore, []⟩
          ⟨"garden-dev", "p"⟩).1.store.secrets.find? (Secret.named shootP.Namespace name) = some s ∧
        ((s.Labels.lookup GardenRole).isSome = false → FinalizerName ∈ s.Finalizers)) ∧
    ((∃ name ∈ secretNamesForDNSProviders shootP,
      ∃ s, (shootReferenceReconciler.Reconcile ⟨storeSecretLister⟩ ⟨gardenStore, []⟩
          ⟨"garden-dev", "p"⟩).1.store.secrets.find? (Secret.named shootP.Namespace name) = some s ∧
        (s.Labels.lookup GardenRole).isSome = false) →
      ∃ fs, (shootReferenceReconciler.Reconcile ⟨storeSecretLister⟩ ⟨gardenStore, []⟩
          ⟨"garden-dev", "p"⟩).1.store.shootFinalizers "garden-dev" "p" = some fs ∧
        FinalizerName ∈ fs) :=
  (Reconcile_grant ⟨storeSecretLister⟩ ⟨gardenStore, []⟩ ⟨"garden-dev", "p"⟩ shootP
    (by decide) (by decide) (by decide)).2 (by decide)

/-! ## The marker of the parent -/

/-- C5, as stated, fails: in `protectedStore` the secret `c` referenced by `p` already carries
the protective finalizer, so the pass for `p` grants nothing afresh (no secret changes), and
yet `p` carries the protective finalizer after the pass. -/
theorem Reconcile_parent_marked_without_fresh_grant :
    (shootReferenceReconciler.Reconcile ⟨storeSecretLister⟩ ⟨protectedStore, []⟩
        ⟨"garden-dev", "p"⟩).2 = none ∧
      (shootReferenceReconciler.Reconcile ⟨storeSecretLister⟩ ⟨protectedStore, []⟩
        ⟨"garden-dev", "p"⟩).1.store.shootFinalizers "garden-dev" "p"
          = some [GardenerName, FinalizerName] ∧
      (shootReferenceReconciler.Reconcile ⟨storeSecretLister⟩ ⟨protectedStore, []⟩
        ⟨"garden-dev", "p"⟩).1.store.secrets = protectedStore.secrets ∧
      (∀ s ∈ protectedStore.secrets, FinalizerName ∈ s.Finalizers) := by
  decide

/-- C5, amended: for a parent of the store that is not being finally removed, after a pass
that ends without error the parent carries `FinalizerName` if and only if at least one secret
referenced by its DNS providers is user-managed (lacks the label `GardenRole`), whether or not
that secret already carried `FinalizerName` before the pass. -/
theorem Reconcile_parent_marker (r : shootReferenceReconciler) (c : Client) (request : Request)
    (shoot : Shoot) (hwf : c.store.WF)
    (hP : c.store.shoots.find? (Shoot.named request.Namespace request.Name) = some shoot)
    (hlive : ¬ beingFinallyRemoved shoot)
    (h : (r.Reconcile c request).2 = none) :
    (∃ fs, (r.Reconcile c request).1.store.shootFinalizers request.Namespace request.Name
        = some fs ∧ FinalizerName ∈ fs) ↔
      ∃ name ∈ secretNamesForDNSProviders shoot, ∃ s ∈ c.store.secrets,
        s.Namespace = shoot.Namespace ∧ s.Name = name ∧
          (s.Labels.lookup GardenRole).isSome = false := by
  obtain ⟨secrets, _, _, h2⟩ := Reconcile_closed_form r c request shoot hwf hP h
  obtain ⟨_, _, hsh⟩ := h2 hlive
  have hiff : referencesUserManaged shoot c.store.secrets ↔
      ∃ name ∈ secretNamesForDNSProviders shoot, ∃ s ∈ c.store.secrets,
        s.Namespace = shoot.Namespace ∧ s.Name = name ∧
          (s.Labels.lookup GardenRole).isSome = false := by
    simp only [referencesUserManaged, userManaged_iff]
  rw [← hiff]
  have hfs := shootFinalizers_patched c.store.shoots (r.Reconcile c request).1.store.secrets
    request.Namespace request.Name
    (if referencesUserManaged shoot c.store.secrets then addFinalizer FinalizerName
     else removeFinalizer FinalizerName) shoot hP
  rw [← hsh] at hfs
  constructor
  · rintro ⟨fs, h1, hmem⟩
    by_contra hneeds
    have h3 : (r.Reconcile c request).1.store.shootFinalizers request.Namespace request.Name
        = some fs := h1
    rw [hfs, if_neg hneeds] at h3
    rw [← Option.some.inj h3] at hmem
    exact not_mem_removeFinalizer _ _ hmem
  · intro hneeds
    rw [if_pos hneeds] at hfs
    exact ⟨_, hfs, mem_addFinalizer _ _⟩

/-- C5, amended, at `protectedStore`: `p` carries the protective finalizer after the pass. -/
theorem Reconcile_parent_marker_witness :
    (∃ fs, (shootReferenceReconciler.Reconcile ⟨storeSecretLister⟩ ⟨protectedStore, []⟩
        ⟨"garden-dev", "p"⟩).1.store.shootFinalizers "garden-dev" "p" = some fs ∧
          FinalizerName ∈ fs) ↔
      ∃ name ∈ secretNamesForDNSProviders shootUnprotected, ∃ s ∈ protectedStore.secrets,
        s.Namespace = shootUnprotected.Namespace ∧ s.Name = name ∧
          (s.Labels.lookup GardenRole).isSome = false :=
  Reconcile_parent_marker ⟨storeSecretLister⟩ ⟨protectedStore, []⟩ ⟨"garden-dev", "p"⟩
    shootUnprotected (by decide) (by decide) (by decide) (by decide)

/-! ## Missing objects -/

/-- C10, as stated, fails: in `danglingStore` no request fails for another reason than a
missing object, the secret `x` referenced by `p` does not exist, and `Reconcile` returns the
error of the fan-out. -/
theorem Reconcile_missing_referenced_secret :
    (shootReferenceReconciler.Reconcile ⟨storeSecretLister⟩ ⟨danglingStore, []⟩
        ⟨"garden-dev", "p"⟩).2 = some (Err.multi [StoreError.notFound]) := by
  decide

/-- C10, amended: when no request fails for another reason than a missing object, `Reconcile`
returns no error and leaves the store as it is if the parent does not exist; and if the
parent exists and the lister answers, `Reconcile` returns no error exactly when the parent is
being finally removed or every secret referenced by its DNS providers exists: a secret to
release that does not exist does not fail the pass, a referenced secret that does not exist
does. -/
theorem Reconcile_notFound (r : shootReferenceReconciler) (c : Client) (request : Request)
    (hwf : c.store.WF) (hf : c.faults = []) :
    (c.store.shoots.find? (Shoot.named request.Namespace request.Name) = none →
      r.Reconcile c request = (⟨c.store, []⟩, none)) ∧
    (∀ shoot secrets,
      c.store.shoots.find? (Shoot.named request.Namespace request.Name) = some shoot →
      r.secretLister c.store shoot.Namespace UserManagedSelector = .ok secrets →
      ((r.Reconcile c request).2 = none ↔
        (beingFinallyRemoved shoot ∨
          ∀ name ∈ secretNamesForDNSProviders shoot, ∃ s ∈ c.store.secrets,
            s.Namespace = shoot.Namespace ∧ s.Name = name))) := by
  constructor
  · intro hfind
    rw [Reconcile_gone r c request (fails_of_faults_nil c hf)
      (fails_of_faults_nil c.next (next_faults_nil c hf)) hfind]
    simp [Client.next, hf]
  · intro shoot secrets hP hl
    constructor
    · intro h
      by_cases hrm : beingFinallyRemoved shoot
      · exact Or.inl hrm
      · obtain ⟨_, _, _, h2⟩ := Reconcile_closed_form r c request shoot hwf hP h
        exact Or.inr (h2 hrm).2.1
    · intro h
      refine (Reconcile_ok r c request shoot secrets hf hP hl ?_).1
      intro hrm
      rcases h with h | h
      · exact absurd h hrm
      · exact h

/-- C10, amended, at `gardenStore` with a stale lister: the secret to release is gone, and the
pass for `p` returns no error. -/
theorem Reconcile_notFound_witness :
    (shootReferenceReconciler.Reconcile ⟨staleSecretLister⟩ ⟨gardenStore, []⟩
        ⟨"garden-dev", "p"⟩).2 = none :=
  ((Reconcile_notFound ⟨staleSecretLister⟩ ⟨gardenStore, []⟩ ⟨"garden-dev", "p"⟩
    (by decide) rfl).2 shootP _ (by decide) rfl).mpr (Or.inr (by decide))

/-! ## Release -/

theorem mem_referencedSecretNames_store (shoots : List Shoot) (shoot : Shoot)
    (hnd : (shoots.map (fun s => (s.Namespace, s.Name))).Nodup) (hP : shoot ∈ shoots)
    (name : String) :
    name ∈ referencedSecretNames shoot (shoots.filter (fun s => s.Namespace = shoot.Namespace)) ↔
      ∃ s ∈ shoots, s.Namespace = shoot.Namespace ∧
        ¬ (s.Name = shoot.Name ∧ beingFinallyRemoved shoot) ∧
        name ∈ secretNamesForDNSProviders s := by
  rw [mem_referencedSecretNames]
  have key : ∀ s ∈ shoots, s.Namespace = shoot.Namespace →
      ((s.Name = shoot.Name ∧ shoot.DeletionTimestamp ≠ none ∧ GardenerName ∉ s.Finalizers) ↔
        (s.Name = shoot.Name ∧ beingFinallyRemoved shoot)) := by
    intro s hs hns
    unfold beingFinallyRemoved
    constructor
    · rintro ⟨h1, h2, h3⟩
      have : s = shoot := List.inj_on_of_nodup_map hnd hs hP (by simp [hns, h1])
      subst this
      exact ⟨h1, h2, h3⟩
    · rintro ⟨h1, h2, h3⟩
      have : s = shoot := List.inj_on_of_nodup_map hnd hs hP (by simp [hns, h1])
      subst this
      exact ⟨h1, h2, h3⟩
  constructor
  · rintro ⟨s, hs, hnot, hmem⟩
    simp only [List.mem_filter, decide_eq_true_eq] at hs
    exact ⟨s, hs.1, hs.2, fun h => hnot ((key s hs.1 hs.2).mpr h), hmem⟩
  · rintro ⟨s, hs, hns, hnot, hmem⟩
    refine ⟨s, ?_, fun h => hnot ((key s hs hns).mp h), hmem⟩
    simp only [List.mem_filter, decide_eq_true_eq]
    exact ⟨hs, hns⟩

/-- C2: in a pass that ends without error, for a parent `shoot` of the store and with a lister
that returns the user-managed secrets of the namespace, a user-managed secret of the
namespace loses `FinalizerName` (it carried it before, and does not carry it after) if and only
if it carried it before and no shoot of the namespace references it by name, the references
of the parent itself not counted when the parent is being finally removed. -/
theorem Reconcile_release_iff (r : shootReferenceReconciler) (c : Client) (request : Request)
    (shoot : Shoot) (hwf : c.store.WF)
    (hP : c.store.shoots.find? (Shoot.named request.Namespace request.Name) = some shoot)
    (hlister : r.secretLister c.store shoot.Namespace UserManagedSelector =
      .ok (c.store.secrets.filter
        (fun s => s.Namespace = shoot.Namespace ∧ UserManagedSelector s.Labels)))
    (h : (r.Reconcile c request).2 = none)
    (secret : Secret) (hs : secret ∈ c.store.secrets)
    (hns : secret.Namespace = shoot.Namespace)
    (hum : (secret.Labels.lookup GardenRole).isSome = false) :
    (FinalizerName ∈ secret.Finalizers ∧
      ∃ fs, (r.Reconcile c request).1.store.secretFinalizers secret.Namespace secret.Name
        = some fs ∧ FinalizerName ∉ fs) ↔
    (FinalizerName ∈ secret.Finalizers ∧
      ¬ ∃ s ∈ c.store.shoots, s.Namespace = shoot.Namespace ∧
          ¬ (s.Name = shoot.Name ∧ beingFinallyRemoved shoot) ∧
          secret.Name ∈ secretNamesForDNSProviders s) := by
  have hPm := List.mem_of_find?_eq_some hP
  have hu : UserManagedSelector secret.Labels = true := (userManaged_iff _).mpr hum
  obtain ⟨secrets, hl, h1, h2⟩ := Reconcile_closed_form r c request shoot hwf hP h
  rw [hlister] at hl
  have hsecrets := Except.ok.inj hl
  subst hsecrets
  have hfind := find_named_of_nodup _ _ _ secret hwf.2 hs ⟨rfl, rfl⟩
  have hkey := mem_release_keys shoot
    (c.store.shoots.filter (fun s => s.Namespace = shoot.Namespace)) c.store.secrets hwf.2
    (fun s => decide (s.Namespace = shoot.Namespace ∧ UserManagedSelector s.Labels = true))
    secret hs
  rw [mem_referencedSecretNames_store _ _ hwf.1 hPm] at hkey
  have hp : decide (secret.Namespace = shoot.Namespace ∧
      UserManagedSelector secret.Labels = true) = true := decide_eq_true ⟨hns, hu⟩
  replace hkey := hkey.trans (and_iff_right hp)
  rw [← hkey]
  unfold Store.secretFinalizers
  by_cases hrm : beingFinallyRemoved shoot
  · obtain ⟨hsec, _⟩ := h1 hrm
    rw [hsec, find_releasedAt _ _ _ _ secret hfind]
    simp only [Option.map_some', Option.some.injEq, exists_eq_left', released_Finalizers]
    constructor
    · rintro ⟨hfin, hnot⟩
      by_contra hk
      rw [if_neg hk] at hnot
      exact hnot hfin
    · intro hk
      refine ⟨?_, ?_⟩
      · rw [hkey] at hk; exact hk.1
      · rw [if_pos hk]; exact not_mem_removeFinalizer _ _
  · obtain ⟨hsec, _, _⟩ := h2 hrm
    rw [hsec, find_grantedAt _ _ _ _ _ _ (find_releasedAt _ _ _ _ secret hfind)]
    simp only [Option.map_some', Option.some.injEq, exists_eq_left', granted_Finalizers,
      released_Finalizers, released_Namespace, released_Name, released_Labels]
    constructor
    · rintro ⟨hfin, hnot⟩
      by_contra hk
      rw [if_neg hk] at hnot
      split_ifs at hnot
      · exact hnot (mem_addFinalizer _ _)
      · exact hnot hfin
    · intro hk
      have hk' := hkey.mp hk
      refine ⟨hk'.1, ?_⟩
      have hnotref : ¬ (secret.Namespace = shoot.Namespace ∧
          secret.Name ∈ secretNamesForDNSProviders shoot ∧
          UserManagedSelector secret.Labels = true) := by
        rintro ⟨_, hmem, _⟩
        exact hk'.2 ⟨shoot, hPm, rfl, fun hx => hrm hx.2, hmem⟩
      rw [if_neg hnotref, if_pos hk]
      exact not_mem_removeFinalizer _ _

/-- C2 at `gardenStore`: the pass for `p` releases the protected secret `e`, which no shoot
references. -/
theorem Reconcile_release_iff_witness :
    (FinalizerName ∈ [FinalizerName] ∧
      ∃ fs, (shootReferenceReconciler.Reconcile ⟨storeSecretLister⟩ ⟨gardenStore, []⟩
          ⟨"garden-dev", "p"⟩).1.store.secretFinalizers "garden-dev" "e" = some fs ∧
        FinalizerName ∉ fs) ↔
    (FinalizerName ∈ [FinalizerName] ∧
      ¬ ∃ s ∈ gardenStore.shoots, s.Namespace = shootP.Namespace ∧
          ¬ (s.Name = shootP.Name ∧ beingFinallyRemoved shootP) ∧
          "e" ∈ secretNamesForDNSProviders s) :=
  Reconcile_release_iff ⟨storeSecretLister⟩ ⟨gardenStore, []⟩ ⟨"garden-dev", "p"⟩ shootP
    (by decide) (by decide) rfl (by decide)
    { Namespace := "garden-dev", Name := "e", Labels := [], Finalizers := [FinalizerName] }
    (by decide) rfl rfl

/-! ## A second pass -/

theorem addFinalizer_idem (f : String) (fs : List String) :
    addFinalizer f (addFinalizer f fs) = addFinalizer f fs :=
  addFinalizer_of_mem _ _ (mem_addFinalizer f fs)

theorem shoot_patched_Namespace (ns name : String) (f : List String → List String) (s : Shoot) :
    (Shoot.patched ns name f s).Namespace = s.Namespace := by
  unfold Shoot.patched; split_ifs <;> rfl

theorem shoot_patched_Name (ns name : String) (f : List String → List String) (s : Shoot) :
    (Shoot.patched ns name f s).Name = s.Name := by
  unfold Shoot.patched; split_ifs <;> rfl

theorem shoot_patched_DNS (ns name : String) (f : List String → List String) (s : Shoot) :
    (Shoot.patched ns name f s).DNS = s.DNS := by
  unfold Shoot.patched; split_ifs <;> rfl

theorem shoot_patched_DeletionTimestamp (ns name : String) (f : List String → List String)
    (s : Shoot) : (Shoot.patched ns name f s).DeletionTimestamp = s.DeletionTimestamp := by
  unfold Shoot.patched; split_ifs <;> rfl

theorem shoot_patched_Finalizers (f : List String → List String) (s : Shoot) :
    (Shoot.patched s.Namespace s.Name f s).Finalizers = f s.Finalizers := by
  have hn : s.named s.Namespace s.Name = true := (shoot_named_iff _ _ _).mpr ⟨rfl, rfl⟩
  unfold Shoot.patched
  rw [if_pos hn]

theorem shoot_patched_names (ns name : String) (f : List String → List String) (s : Shoot) :
    secretNamesForDNSProviders (Shoot.patched ns name f s) = secretNamesForDNSProviders s := by
  unfold secretNamesForDNSProviders
  rw [shoot_patched_DNS]

theorem shoot_patched_idem (ns name : String) (f : List String → List String)
    (hf : ∀ fs, f (f fs) = f fs) (s : Shoot) :
    Shoot.patched ns name f (Shoot.patched ns name f s) = Shoot.patched ns name f s := by
  by_cases hk : s.named ns name = true
  · have h1 : Shoot.patched ns name f s =
        { Namespace := s.Namespace, Name := s.Name, DeletionTimestamp := s.DeletionTimestamp,
          Finalizers := f s.Finalizers, DNS := s.DNS } := by
      unfold Shoot.patched; rw [if_pos hk]
    rw [h1]
    have hk' : Shoot.named ns name
        { Namespace := s.Namespace, Name := s.Name, DeletionTimestamp := s.DeletionTimestamp,
          Finalizers := f s.Finalizers, DNS := s.DNS } = true := hk
    unfold Shoot.patched
    rw [if_pos hk']
    simp only [hf]
  · have h1 : Shoot.patched ns name f s = s := by
      unfold Shoot.patched; rw [if_neg hk]
    rw [h1, h1]

theorem map_shoot_patched_keys (ns name : String) (f : List String → List String)
    (l : List Shoot) :
    (l.map (Shoot.patched ns name f)).map (fun s => (s.Namespace, s.Name)) =
      l.map (fun s => (s.Namespace, s.Name)) := by
  simp only [List.map_map]
  apply List.map_congr_left
  intro s _
  simp only [Function.comp, shoot_patched_Namespace, shoot_patched_Name]

theorem finallyRemoved_patched (f : List String → List String) (s : Shoot)
    (hf : GardenerName ∈ f s.Finalizers ↔ GardenerName ∈ s.Finalizers) :
    beingFinallyRemoved (Shoot.patched s.Namespace s.Name f s) ↔ beingFinallyRemoved s := by
  unfold beingFinallyRemoved
  rw [shoot_patched_DeletionTimestamp, shoot_patched_Finalizers, hf]

theorem gardener_ne_finalizer : GardenerName ≠ FinalizerName := by decide

theorem referencesUserManaged_patched (ns name : String) (f : List String → List String)
    (s : Shoot) (l : List Secret) :
    referencesUserManaged (Shoot.patched ns name f s) l ↔ referencesUserManaged s l := by
  unfold referencesUserManaged
  rw [shoot_patched_names, shoot_patched_Namespace]

theorem granted_idem (ns : String) (names : List String) (s : Secret) :
    (s.granted ns names).granted ns names = s.granted ns names := by
  by_cases hc : s.Namespace = ns ∧ s.Name ∈ names ∧ UserManagedSelector s.Labels = true
  · have h1 : s.granted ns names =
        { Namespace := s.Namespace, Name := s.Name, Labels := s.Labels,
          Finalizers := addFinalizer FinalizerName s.Finalizers } := by
      unfold Secret.granted; rw [if_pos hc]
    rw [h1]
    unfold Secret.granted
    rw [if_pos hc]
    simp only [addFinalizer_idem]
  · have h1 : s.granted ns names = s := by
      unfold Secret.granted; rw [if_neg hc]
    rw [h1, h1]

theorem grantedAt_idem (ns : String) (names : List String) (l : List Secret) :
    grantedAt ns names (grantedAt ns names l) = grantedAt ns names l := by
  simp only [grantedAt, List.map_map]
  apply List.map_congr_left
  intro s _
  exact granted_idem ns names s

theorem releasedAt_of_not_mem (keys : List (String × String)) (l : List Secret)
    (h : ∀ s ∈ l, (s.Namespace, s.Name) ∉ keys) : releasedAt keys l = l := by
  unfold releasedAt
  conv_rhs => rw [← List.map_id l]
  apply List.map_congr_left
  intro s hs
  unfold Secret.released
  rw [if_neg (h s hs)]
  rfl

/-- After a pass that ends without error, every user-managed secret of the namespace that
carries the protective finalizer is referenced by a shoot of the namespace. -/
theorem protected_is_referenced (r : shootReferenceReconciler) (c : Client) (request : Request)
    (shoot : Shoot) (hwf : c.store.WF)
    (hP : c.store.shoots.find? (Shoot.named request.Namespace request.Name) = some shoot)
    (hlister : r.secretLister c.store shoot.Namespace UserManagedSelector =
      .ok (c.store.secrets.filter
        (fun s => s.Namespace = shoot.Namespace ∧ UserManagedSelector s.Labels)))
    (h : (r.Reconcile c request).2 = none) :
    ∀ s ∈ (r.Reconcile c request).1.store.secrets, s.Namespace = shoot.Namespace →
      UserManagedSelector s.Labels = true → FinalizerName ∈ s.Finalizers →
      ∃ t ∈ c.store.shoots, t.Namespace = shoot.Namespace ∧
        ¬ (t.Name = shoot.Name ∧ beingFinallyRemoved shoot) ∧
        s.Name ∈ secretNamesForDNSProviders t := by
  have hPm := List.mem_of_find?_eq_some hP
  obtain ⟨secrets, hl, h1, h2⟩ := Reconcile_closed_form r c request shoot hwf hP h
  rw [hlister] at hl
  have hsecrets := Except.ok.inj hl
  subst hsecrets
  -- what is left after the release phase
  have hrel : ∀ s0 ∈ c.store.secrets, s0.Namespace = shoot.Namespace →
      UserManagedSelector s0.Labels = true →
      FinalizerName ∈ (s0.released ((secretsToRelease shoot
        (c.store.shoots.filter (fun s => s.Namespace = shoot.Namespace))
        (c.store.secrets.filter
          (fun s => s.Namespace = shoot.Namespace ∧ UserManagedSelector s.Labels))).map
          (fun s => (s.Namespace, s.Name)))).Finalizers →
      ∃ t ∈ c.store.shoots, t.Namespace = shoot.Namespace ∧
        ¬ (t.Name = shoot.Name ∧ beingFinallyRemoved shoot) ∧
        s0.Name ∈ secretNamesForDNSProviders t := by
    intro s0 hs0 hns hu hfin
    have hkey := mem_release_keys shoot
      (c.store.shoots.filter (fun s => s.Namespace = shoot.Namespace)) c.store.secrets hwf.2
      (fun s => decide (s.Namespace = shoot.Namespace ∧ UserManagedSelector s.Labels = true))
      s0 hs0
    rw [mem_referencedSecretNames_store _ _ hwf.1 hPm] at hkey
    rw [released_Finalizers] at hfin
    by_contra hnot
    by_cases hk : (s0.Namespace, s0.Name) ∈ (secretsToRelease shoot
        (c.store.shoots.filter (fun s => s.Namespace = shoot.Namespace))
        (c.store.secrets.filter
          (fun s => s.Namespace = shoot.Namespace ∧ UserManagedSelector s.Labels))).map
          (fun s => (s.Namespace, s.Name))
    · rw [if_pos hk] at hfin
      exact not_mem_removeFinalizer _ _ hfin
    · rw [if_neg hk] at hfin
      exact hk (hkey.mpr ⟨decide_eq_true ⟨hns, hu⟩, hfin, hnot⟩)
  intro s hs hns hu hfin
  by_cases hrm : beingFinallyRemoved shoot
  · obtain ⟨hsec, _⟩ := h1 hrm
    rw [hsec, releasedAt, List.mem_map] at hs
    obtain ⟨s0, hs0, rfl⟩ := hs
    rw [released_Namespace] at hns
    rw [released_Labels] at hu
    rw [released_Name]
    exact hrel s0 hs0 hns hu hfin
  · obtain ⟨hsec, _, _⟩ := h2 hrm
    rw [hsec, grantedAt, releasedAt, List.map_map, List.mem_map] at hs
    obtain ⟨s0, hs0, rfl⟩ := hs
    simp only [Function.comp] at hns hu hfin ⊢
    rw [granted_Namespace, released_Namespace] at hns
    rw [granted_Labels, released_Labels] at hu
    rw [granted_Name, released_Name]
    rw [granted_Finalizers, released_Namespace, released_Name, released_Labels] at hfin
    by_cases hc : s0.Namespace = shoot.Namespace ∧
        s0.Name ∈ secretNamesForDNSProviders shoot ∧ UserManagedSelector s0.Labels = true
    · exact ⟨shoot, hPm, rfl, fun hx => hrm hx.2, hc.2.1⟩
    · rw [if_neg hc] at hfin
      exact hrel s0 hs0 hns hu hfin

theorem client_eq (c : Client) (st : Store) (h1 : c.store.shoots = st.shoots)
    (h2 : c.store.secrets = st.secrets) (h3 : c.faults = []) : c = ⟨st, []⟩ := by
  obtain ⟨⟨a, b⟩, f⟩ := c
  obtain ⟨a', b'⟩ := st
  simp only at h1 h2 h3
  subst h1 h2 h3
  rfl

/-- C6: if a pass for a key ends without error, a second pass for the same key on the store
the first one left, with no request failing, ends without error and leaves that store as it
is: no shoot and no secret differs.  The lister returns the user-managed secrets of the
namespace it is asked for. -/
theorem Reconcile_idempotent (r : shootReferenceReconciler) (c : Client) (request : Request)
    (hwf : c.store.WF)
    (hlister : ∀ st ns, r.secretLister st ns UserManagedSelector =
      .ok (st.secrets.filter (fun s => s.Namespace = ns ∧ UserManagedSelector s.Labels)))
    (h : (r.Reconcile c request).2 = none) :
    r.Reconcile ⟨(r.Reconcile c request).1.store, []⟩ request =
      (⟨(r.Reconcile c request).1.store, []⟩, none) := by
  obtain ⟨hf, hf1⟩ := Reconcile_success r c request h
  cases hP : c.store.shoots.find? (Shoot.named request.Namespace request.Name) with
  | none =>
    have h1 : (r.Reconcile c request).1.store = c.store := by
      rw [Reconcile_gone r c request hf hf1 hP]; rfl
    rw [h1]
    exact Reconcile_gone r ⟨c.store, []⟩ request rfl rfl hP
  | some shoot =>
    have hPm := List.mem_of_find?_eq_some hP
    obtain ⟨secrets, _, h1, h2⟩ := Reconcile_closed_form r c request shoot hwf hP h
    have href := protected_is_referenced r c request shoot hwf hP (hlister _ _) h
    -- the patch the first pass applied to the parent
    obtain ⟨f1, hsh1, hidem, hgard, hf1live⟩ : ∃ f1 : List String → List String,
        (r.Reconcile c request).1.store.shoots =
          c.store.shoots.map (Shoot.patched shoot.Namespace shoot.Name f1) ∧
        (∀ fs, f1 (f1 fs) = f1 fs) ∧
        (∀ fs, GardenerName ∈ f1 fs ↔ GardenerName ∈ fs) ∧
        (¬ beingFinallyRemoved shoot →
          f1 = if referencesUserManaged shoot c.store.secrets then addFinalizer FinalizerName
               else removeFinalizer FinalizerName) ∧
        (beingFinallyRemoved shoot → f1 = removeFinalizer FinalizerName) := by
      by_cases hrm : beingFinallyRemoved shoot
      · exact ⟨removeFinalizer FinalizerName, (h1 hrm).2, removeFinalizer_idem _,
          fun fs => mem_removeFinalizer_of_ne _ _ fs gardener_ne_finalizer,
          fun hx => absurd hrm hx, fun _ => rfl⟩
      · refine ⟨_, (h2 hrm).2.2, ?_, ?_, fun _ => rfl, fun hx => absurd hx hrm⟩
        · intro fs
          split_ifs
          · exact addFinalizer_idem _ _
          · exact removeFinalizer_idem _ _
        · intro fs
          split_ifs
          · exact mem_addFinalizer_of_ne _ _ fs gardener_ne_finalizer
          · exact mem_removeFinalizer_of_ne _ _ fs gardener_ne_finalizer
    obtain ⟨hf1live, hf1rm⟩ := hf1live
    have hkeys1 : (r.Reconcile c request).1.store.secrets.map (fun s => (s.Namespace, s.Name)) =
        c.store.secrets.map (fun s => (s.Namespace, s.Name)) := by
      by_cases hrm : beingFinallyRemoved shoot
      · rw [(h1 hrm).1, releasedAt_keys]
      · rw [(h2 hrm).1, grantedAt_keys, releasedAt_keys]
    have hwf1 : (r.Reconcile c request).1.store.WF := by
      constructor
      · rw [hsh1, map_shoot_patched_keys]; exact hwf.1
      · rw [hkeys1]; exact hwf.2
    have hP1 : (r.Reconcile c request).1.store.shoots.find?
        (Shoot.named request.Namespace request.Name) =
        some (Shoot.patched shoot.Namespace shoot.Name f1 shoot) := by
      rw [hsh1, find_map_preserved _ _ _ (shoot_patched_named _ _ f1 _ _), hP]
      rfl
    have hP1m := List.mem_of_find?_eq_some hP1
    have hrm' := finallyRemoved_patched f1 shoot (hgard shoot.Finalizers)
    have hex' : ¬ beingFinallyRemoved (Shoot.patched shoot.Namespace shoot.Name f1 shoot) →
        ∀ name ∈ secretNamesForDNSProviders (Shoot.patched shoot.Namespace shoot.Name f1 shoot),
          ∃ s ∈ (r.Reconcile c request).1.store.secrets,
            s.Namespace = (Shoot.patched shoot.Namespace shoot.Name f1 shoot).Namespace ∧
              s.Name = name := by
      intro hrm name hname
      rw [hrm'] at hrm
      rw [shoot_patched_names] at hname
      rw [shoot_patched_Namespace, (h2 hrm).1]
      exact (exists_granted_iff _ _ _ (fun a b _ => a = shoot.Namespace ∧ b = name)).mpr
        ((exists_released_iff _ _ (fun a b _ => a = shoot.Namespace ∧ b = name)).mpr
          ((h2 hrm).2.1 name hname))
    have hok := Reconcile_ok r ⟨(r.Reconcile c request).1.store, []⟩ request
      (Shoot.patched shoot.Namespace shoot.Name f1 shoot) _ rfl hP1 (hlister _ _) hex'
    obtain ⟨secrets2, hl2, g1, g2⟩ := Reconcile_closed_form r
      ⟨(r.Reconcile c request).1.store, []⟩ request
      (Shoot.patched shoot.Namespace shoot.Name f1 shoot) hwf1 hP1 hok.1
    rw [hlister] at hl2
    have hsecrets2 := Except.ok.inj hl2
    subst hsecrets2
    simp only [shoot_patched_Namespace, shoot_patched_Name, shoot_patched_names] at g1 g2
    -- the second pass has nothing to release
    have hK2 : ∀ s ∈ (r.Reconcile c request).1.store.secrets,
        (s.Namespace, s.Name) ∉ (secretsToRelease
          (Shoot.patched shoot.Namespace shoot.Name f1 shoot)
          ((r.Reconcile c request).1.store.shoots.filter
            (fun s => s.Namespace = shoot.Namespace))
          ((r.Reconcile c request).1.store.secrets.filter
            (fun s => s.Namespace = shoot.Namespace ∧ UserManagedSelector s.Labels))).map
            (fun s => (s.Namespace, s.Name)) := by
      intro s hs hk
      have hkey := (mem_release_keys (Shoot.patched shoot.Namespace shoot.Name f1 shoot)
        ((r.Reconcile c request).1.store.shoots.filter (fun s => s.Namespace = shoot.Namespace))
        (r.Reconcile c request).1.store.secrets hwf1.2
        (fun s => decide (s.Namespace = shoot.Namespace ∧ UserManagedSelector s.Labels = true))
        s hs).mp hk
      obtain ⟨hp, hfin, hnotref⟩ := hkey
      have hp' := of_decide_eq_true hp
      obtain ⟨t, ht, ht1, ht2, ht3⟩ := href s hs hp'.1 hp'.2 hfin
      apply hnotref
      have hstore := mem_referencedSecretNames_store (r.Reconcile c request).1.store.shoots
        (Shoot.patched shoot.Namespace shoot.Name f1 shoot) hwf1.1 hP1m s.Name
      rw [shoot_patched_Namespace, shoot_patched_Name] at hstore
      rw [hstore]
      refine ⟨Shoot.patched shoot.Namespace shoot.Name f1 t, ?_, ?_, ?_, ?_⟩
      · rw [hsh1]; exact List.mem_map_of_mem _ ht
      · rw [shoot_patched_Namespace]; exact ht1
      · rw [shoot_patched_Name, hrm']; exact ht2
      · rw [shoot_patched_names]; exact ht3
    have hrel2 := releasedAt_of_not_mem _ _ hK2
    apply Prod.ext
    · apply client_eq _ _ _ _ hok.2
      · by_cases hrm : beingFinallyRemoved shoot
        · rw [(g1 (hrm'.mpr hrm)).2, hsh1, hf1rm hrm, List.map_map]
          apply List.map_congr_left
          intro t _
          exact shoot_patched_idem _ _ _ (removeFinalizer_idem _) t
        · have hneeds : referencesUserManaged (Shoot.patched shoot.Namespace shoot.Name f1 shoot)
              (r.Reconcile c request).1.store.secrets ↔
              referencesUserManaged shoot c.store.secrets := by
            rw [referencesUserManaged_patched, (h2 hrm).1, referencesUserManaged_granted,
              referencesUserManaged_released]
          rw [(g2 (fun hx => hrm (hrm'.mp hx))).2.2]
          have hf2 : (if referencesUserManaged (Shoot.patched shoot.Namespace shoot.Name f1 shoot)
              (r.Reconcile c request).1.store.secrets then addFinalizer FinalizerName
              else removeFinalizer FinalizerName) = f1 := by
            by_cases hn : referencesUserManaged shoot c.store.secrets
            · rw [if_pos (hneeds.mpr hn), hf1live hrm, if_pos hn]
            · rw [if_neg (fun hx => hn (hneeds.mp hx)), hf1live hrm, if_neg hn]
          rw [hf2]
          conv_lhs => rw [hsh1]
          conv_rhs => rw [hsh1]
          rw [List.map_map]
          apply List.map_congr_left
          intro t _
          exact shoot_patched_idem _ _ _ hidem t
      · by_cases hrm : beingFinallyRemoved shoot
        · rw [(g1 (hrm'.mpr hrm)).1]
          exact hrel2
        · rw [(g2 (fun hx => hrm (hrm'.mp hx))).1, hrel2]
          conv_lhs => rw [(h2 hrm).1]
          conv_rhs => rw [(h2 hrm).1]
          exact grantedAt_idem _ _ _
    · exact hok.1

/-- C6 at `gardenStore`: the second pass for `p` changes nothing. -/
theorem Reconcile_idempotent_witness :
    shootReferenceReconciler.Reconcile ⟨storeSecretLister⟩
        ⟨(shootReferenceReconciler.Reconcile ⟨storeSecretLister⟩ ⟨gardenStore, []⟩
          ⟨"garden-dev", "p"⟩).1.store, []⟩ ⟨"garden-dev", "p"⟩ =
      (⟨(shootReferenceReconciler.Reconcile ⟨storeSecretLister⟩ ⟨gardenStore, []⟩
          ⟨"garden-dev", "p"⟩).1.store, []⟩, none) :=
  Reconcile_idempotent ⟨storeSecretLister⟩ ⟨gardenStore, []⟩ ⟨"garden-dev", "p"⟩ (by decide)
    (fun _ _ => rfl) (by decide)

end ShootReference
